import Mathlib

set_option maxHeartbeats 1000000
set_option maxRecDepth 4000
set_option linter.unusedSectionVars false

/-!
Shallow embedding of the mtg repository: the adjustable binary heap
(adjustable_heap.py), the Möbius-transform castability oracle and the
castability decider (mtg.py), and the min-cost-flow engine (mcf.py),
together with proofs about the specified properties.

Loops of the source are rendered as fuel-indexed structural recursions; every
operation is called with enough fuel for the fuel to never run out, so the
functions compute exactly what the source loops compute.
-/

namespace AdjustableHeap

/-- Heap entry mirroring the AdjustableHeapKey object: the stored value, its
comparison key, and the index of its current position in the heap array. -/
structure AdjustableHeapKey (V K : Type) where
  val : V
  comp_key : K
  index : Nat

instance {V K : Type} [Inhabited V] [Inhabited K] : Inhabited (AdjustableHeapKey V K) :=
  ⟨⟨default, default, 0⟩⟩

variable {V K : Type} [Inhabited V] [Inhabited K]

/-- Entry at position i of the heap array (junk default when out of range;
the source never indexes out of range). -/
def ent (h : Array (AdjustableHeapKey V K)) (i : Nat) : AdjustableHeapKey V K :=
  h.getD i default

/-- Parent position of heap position i, as computed by the source:
(index + 1) // 2 - 1. -/
def par (i : Nat) : Nat := (i + 1) / 2 - 1

/-- Bubble-up loop of the adjust method. While the key compares strictly
below its parent, the parent entry is copied down (with its index field
updated) and the cursor moves to the parent position. The fuel argument only
drives structural recursion; fuel equal to the start index always suffices. -/
def bubbleUpGo (lt : K → K → Bool) (key : AdjustableHeapKey V K) :
    Nat → Array (AdjustableHeapKey V K) → Nat → Array (AdjustableHeapKey V K) × Nat
  | 0, h, index => (h, index)
  | fuel + 1, h, index =>
    if index = 0 then (h, index)
    else
      let pi := par index
      let parent := ent h pi
      if lt key.comp_key parent.comp_key then
        bubbleUpGo lt key fuel (h.setD index ⟨parent.val, parent.comp_key, index⟩) pi
      else (h, index)

/-- Bubble-down loop of the adjust method. While the key has a child and does
not compare strictly below the smaller child, that child is copied up (index
field updated) and the cursor descends. Fuel equal to the array size always
suffices. -/
def bubbleDownGo (lt : K → K → Bool) (key : AdjustableHeapKey V K) :
    Nat → Array (AdjustableHeapKey V K) → Nat → Array (AdjustableHeapKey V K) × Nat
  | 0, h, index => (h, index)
  | fuel + 1, h, index =>
    if 2 * index + 1 < h.size then
      let li := 2 * index + 1
      let ri := 2 * index + 2
      let min_index :=
        if ri < h.size && lt (ent h ri).comp_key (ent h li).comp_key then ri else li
      if lt key.comp_key (ent h min_index).comp_key then (h, index)
      else
        let c := ent h min_index
        bubbleDownGo lt key fuel (h.setD index ⟨c.val, c.comp_key, index⟩) min_index
    else (h, index)

/-- Combined adjust method: bubble the key up from its recorded index, then
down, and finally store it at the resulting position with its index field set
to that position. -/
def adjust (lt : K → K → Bool) (h : Array (AdjustableHeapKey V K))
    (key : AdjustableHeapKey V K) : Array (AdjustableHeapKey V K) :=
  let r1 := bubbleUpGo lt key key.index h key.index
  let r2 := bubbleDownGo lt key r1.1.size r1.1 r1.2
  r2.1.setD r2.2 ⟨key.val, key.comp_key, r2.2⟩

/-- Push: append a fresh entry with index equal to the old size, then adjust. -/
def push (lt : K → K → Bool) (key_fn : V → K) (h : Array (AdjustableHeapKey V K))
    (v : V) : Array (AdjustableHeapKey V K) :=
  adjust lt (h.push ⟨v, key_fn v, h.size⟩) ⟨v, key_fn v, h.size⟩

/-- Pop: return the root value; move the last entry to the root (index 0) and
adjust, unless the heap had exactly one element. -/
def pop (lt : K → K → Bool) (h : Array (AdjustableHeapKey V K)) :
    V × Array (AdjustableHeapKey V K) :=
  let result := (ent h 0).val
  if h.size = 1 then (result, #[])
  else
    let last := ent h (h.size - 1)
    let key : AdjustableHeapKey V K := ⟨last.val, last.comp_key, 0⟩
    (result, adjust lt ((h.pop).setD 0 key) key)

/-- Peek: the root value, without removing it. -/
def peek (h : Array (AdjustableHeapKey V K)) : V := (ent h 0).val

/-- Adjust-key on the entry currently stored at position i (the position is
what the index field of a live Python handle holds): replace its value,
recompute its comparison key, and adjust. -/
def adjust_key (lt : K → K → Bool) (key_fn : V → K) (h : Array (AdjustableHeapKey V K))
    (i : Nat) (v : V) : Array (AdjustableHeapKey V K) :=
  adjust lt h ⟨v, key_fn v, i⟩

/-- Remove the entry currently stored at position i: drop the last entry and,
unless it was the removed one, store it at position i and adjust. -/
def remove (lt : K → K → Bool) (h : Array (AdjustableHeapKey V K)) (i : Nat) :
    Array (AdjustableHeapKey V K) :=
  let last := ent h (h.size - 1)
  if i = h.size - 1 then h.pop
  else
    let key : AdjustableHeapKey V K := ⟨last.val, last.comp_key, i⟩
    adjust lt ((h.pop).setD i key) key

end AdjustableHeap

namespace MTG

/-- Number of colors, len(COLORS) for COLORS = WUBRG. -/
def COLORS_LEN : Nat := 5

/-- Bitset of all five colors. -/
def ALL_COLORS_SET : Nat := 31

/-- Bitset of the colors W, B, R (bits 0, 2, 3). -/
def MARDU_COLOR_SET : Nat := 2 ^ 0 + 2 ^ 2 + 2 ^ 3

/-- Land type tags of the source enumeration. -/
inductive LandTypes where
  | BASIC
  | SHOCK
  | SCRY
  | TAP_DUAL
  | ADAMANT
  | CASTLE
  | COLORLESS
  | FABLED_PASSAGE
  | BEACON
  | TAP_TRI
  | LOTUS
  | EVOLVING_WILDS
  | GATEWAY_PLAZA
  | FILTERING
  | COMMAND_TOWER
  | TOURNAMENT_GROUNDS
  | PLAZA_OF_HARMONY
  | GUILDGATE
deriving DecidableEq

/-- Land types whose color production is fixed, per SIMPLE_LAND_TYPES. -/
def SIMPLE_LAND_TYPES : List LandTypes :=
  [.BASIC, .ADAMANT, .CASTLE, .SHOCK, .SCRY, .TAP_DUAL, .GUILDGATE, .TAP_TRI, .COLORLESS]

/-- Inner loop of lower_mobius_transform for one color bit: visit the subsets
of iterSt in the order iterSt, (iterSt - 1) &&& iterSt, ... down to 0, each
time adding the entry at st into the entry at st ||| col. Counter values are
integers, as in the source. Fuel st + 1 always suffices. -/
def mobiusInner (col iterSt : Nat) : Nat → Nat → (Nat → Int) → Nat → Int
  | 0, _, result => result
  | fuel + 1, st, result =>
    let result1 := Function.update result (st ||| col) (result (st ||| col) + result st)
    if st = 0 then result1
    else mobiusInner col iterSt fuel ((st - 1) &&& iterSt) result1

/-- One outer iteration of the transform: run the inner loop for the color
bit at the given index, with col = 2 ^ index and iter_st = ALL ^ col as in
the source, starting at st = iter_st with fuel iter_st + 1. -/
def mobiusStep (index : Nat) (result : Nat → Int) : Nat → Int :=
  mobiusInner (2 ^ index) (ALL_COLORS_SET ^^^ 2 ^ index)
    ((ALL_COLORS_SET ^^^ 2 ^ index) + 1) (ALL_COLORS_SET ^^^ 2 ^ index) result

/-- Lower Möbius transform of a frequency table over color bitsets, exactly
as the subset-sum dynamic program of the source computes it. -/
def lower_mobius_transform (freq : Nat → Int) : Nat → Int :=
  (List.range COLORS_LEN).foldl (fun result index => mobiusStep index result) freq

/-- Castability oracle over simple lands: after transforming both tables and
zeroing the empty-set entry of the land table, check for every bitset index i
that cost_g i + offset is at most total lands minus land_g (31 - i). -/
def can_cast_simple (cost lands : Nat → Int) (offset : Int) : Bool :=
  let cost_g := lower_mobius_transform cost
  let land_g := Function.update (lower_mobius_transform lands) 0 0
  let total_lands := land_g ALL_COLORS_SET
  (List.range 32).all fun i => decide (cost_g i + offset ≤ total_lands - land_g (31 - i))

/-- Spell attributes read by can_cast: the parsed cost table (counts are
integers, as Python dict values are), the type line and the subtype line. -/
structure Spell where
  cost : Nat → Int
  types : List String
  subtypes : List String

/-- Land attributes read by can_cast: name (used for the deterministic sort
of exotic lands), land type tag, and color identity bitset. -/
structure Land where
  name : String
  land_type : LandTypes
  color_identity_set : Nat

instance : Inhabited Land := ⟨⟨"", .BASIC, 0⟩⟩

/-- Increment a counter table at key s by n. -/
def bumpBy (f : Nat → Int) (s : Nat) (n : Int) : Nat → Int :=
  Function.update f s (f s + n)

/-- Accumulator of the land-bucketing loop of can_cast: the simple-land
counter, the list of exotic lands in input order, the count of Plaza of
Harmony lands, and the running guildgate color bitset. -/
structure BucketState where
  simple_lands : Nat → Int
  other_lands : List Land
  plaza_count : Nat
  gate_colors : Nat

/-- One iteration of the bucketing loop, following the source case order. -/
def bucketStep (spell : Spell) (acc : BucketState) (land : Land) : BucketState :=
  if land.land_type = .FABLED_PASSAGE ∨ land.land_type = .EVOLVING_WILDS then acc
  else if land.land_type ∈ SIMPLE_LAND_TYPES then
    let gc :=
      if land.land_type = .GUILDGATE then acc.gate_colors ||| land.color_identity_set
      else acc.gate_colors
    ⟨bumpBy acc.simple_lands land.color_identity_set 1, acc.other_lands, acc.plaza_count, gc⟩
  else if land.land_type = .GATEWAY_PLAZA then
    ⟨bumpBy acc.simple_lands ALL_COLORS_SET 1, acc.other_lands, acc.plaza_count, ALL_COLORS_SET⟩
  else if land.land_type = .COMMAND_TOWER then
    ⟨bumpBy acc.simple_lands ALL_COLORS_SET 1, acc.other_lands, acc.plaza_count, acc.gate_colors⟩
  else if land.land_type = .TOURNAMENT_GROUNDS then
    if "Equipment" ∈ spell.subtypes ∨ "Knight" ∈ spell.subtypes then
      ⟨bumpBy acc.simple_lands MARDU_COLOR_SET 1, acc.other_lands, acc.plaza_count, acc.gate_colors⟩
    else
      ⟨bumpBy acc.simple_lands 0 1, acc.other_lands, acc.plaza_count, acc.gate_colors⟩
  else if land.land_type = .PLAZA_OF_HARMONY then
    ⟨acc.simple_lands, acc.other_lands, acc.plaza_count + 1, acc.gate_colors⟩
  else if land.land_type = .BEACON then
    if "Planeswalker" ∈ spell.types then
      ⟨acc.simple_lands, acc.other_lands ++ [land], acc.plaza_count, acc.gate_colors⟩
    else
      ⟨bumpBy acc.simple_lands 0 1, acc.other_lands, acc.plaza_count, acc.gate_colors⟩
  else ⟨acc.simple_lands, acc.other_lands ++ [land], acc.plaza_count, acc.gate_colors⟩

/-- Bucket the land list into simple and exotic lands, then add the plaza
count to the simple pool at the final guildgate color bitset, as the source
does after its loop. -/
def bucketLands (spell : Spell) (lands : List Land) : BucketState :=
  let st := lands.foldl (bucketStep spell) ⟨fun _ => 0, [], 0, 0⟩
  if st.plaza_count ≠ 0 then
    ⟨bumpBy st.simple_lands st.gate_colors (st.plaza_count : Int),
      st.other_lands, st.plaza_count, st.gate_colors⟩
  else st

/-- Sum of a list of integers. -/
def listSum (l : List Int) : Int := l.foldl (· + ·) 0

/-- Search state of the backtracking phase of can_cast, with the precomputed
heuristic key stored alongside, as the Python object stores huer_dist. -/
structure SearchState where
  colors : List Int
  filter_colors : List Int
  total : Int
  filter_total : Int
  filter_cost : Int
  land_index : Nat
  huer_dist : Int × Int × Int

instance : Inhabited SearchState := ⟨⟨[], [], 0, 0, 0, 0, (0, 0, 0)⟩⟩

/-- Heuristic triple computed by the SearchState constructor. -/
def huerOf (max_colors : List Int) (total_cost : Int)
    (cols fcols : List Int) (total ft filter_cost : Int) (land_index : Nat) :
    Int × Int × Int :=
  let color_req := listSum max_colors - listSum fcols - listSum cols
  let total_req := total_cost - ft - total
  (max color_req total_req + (land_index : Int) + filter_cost, color_req, ft)

/-- SearchState constructor with explicit color tallies: clamp the filtered
tallies by max_colors, clamp the normal tallies by the remaining headroom,
clamp filter_total by total_cost, and compute the heuristic key. -/
def mkSearchState (max_colors : List Int) (total_cost : Int)
    (colors filter_colors : List Int) (total filter_total filter_cost : Int)
    (land_index : Nat) : SearchState :=
  let fcols := (filter_colors.zip max_colors).map fun p => min p.1 p.2
  let cols := ((colors.zip fcols).zip max_colors).map fun p => min p.1.1 (p.2 - p.1.2)
  let ft := min filter_total total_cost
  ⟨cols, fcols, total, ft, filter_cost, land_index,
    huerOf max_colors total_cost cols fcols total ft filter_cost land_index⟩

/-- SearchState constructor with no explicit tallies (the Python default
construction): both tally tuples are zero and are not clamped. -/
def mkStateNone (max_colors : List Int) (total_cost : Int) : SearchState :=
  let zeros : List Int := List.replicate COLORS_LEN 0
  let ft := min 0 total_cost
  ⟨zeros, zeros, 0, ft, 0, 0, huerOf max_colors total_cost zeros zeros 0 ft 0 0⟩

/-- Count how many entries of cols equal the given color index. -/
def countEq (cols : List Nat) (color : Nat) : Int :=
  ((cols.filter fun c => c = color).length : Int)

/-- The add method of SearchState: commit the given color indices as normal
or filtered mana, plus optional colorless mana, advancing to the next land. -/
def stateAdd (max_colors : List Int) (total_cost : Int) (st : SearchState)
    (cols : List Nat) (is_filtered : Bool) (colorless : Nat) (filter_cost : Int) :
    SearchState :=
  let normal_cols := if is_filtered then [] else cols
  let filter_cols := if is_filtered then cols else []
  let normal_total : Int := if is_filtered then 0 else (cols.length : Int) + (colorless : Int)
  let filter_total : Int := if is_filtered then (cols.length : Int) + (colorless : Int) else 0
  mkSearchState max_colors total_cost
    (((List.range COLORS_LEN).zip st.colors).map fun p => p.2 + countEq normal_cols p.1)
    (((List.range COLORS_LEN).zip st.filter_colors).map fun p => p.2 + countEq filter_cols p.1)
    (st.total + normal_total)
    (st.filter_total + filter_total)
    (st.filter_cost + filter_cost)
    (st.land_index + 1)

/-- Identity tuple of a search state, used for the visited set. -/
def ident (st : SearchState) :
    Nat × Int × Int × Int × List Int × List Int :=
  (st.land_index, st.total, st.filter_total, st.filter_cost, st.colors, st.filter_colors)

/-- Strict lexicographic comparison of heuristic triples, as Python compares
int 3-tuples. -/
def keyLt (a b : Int × Int × Int) : Bool :=
  decide (a.1 < b.1) ||
    (decide (a.1 = b.1) &&
      (decide (a.2.1 < b.2.1) || (decide (a.2.1 = b.2.1) && decide (a.2.2 < b.2.2))))

/-- Key extraction for the search heap. -/
def huerKey (st : SearchState) : Int × Int × Int := st.huer_dist

/-- Visited set plus queue pair used by the search loop. -/
abbrev QV : Type :=
  Array (AdjustableHeap.AdjustableHeapKey SearchState (Int × Int × Int)) ×
    List (Nat × Int × Int × Int × List Int × List Int)

/-- The local helper _try_queue of can_cast: push a state unless its identity
tuple was already visited. -/
def tryQueue (qv : QV) (st : SearchState) : QV :=
  if ident st ∈ qv.2 then qv
  else (AdjustableHeap.push keyLt huerKey qv.1 st, ident st :: qv.2)

/-- Lands committed by a search state: the simple pool plus the per-color
tallies as singleton producers plus the leftover totals as empty-set
producers; second component is the filtered-mode sub-pool. -/
def stateLands (simple : Nat → Int) (st : SearchState) : (Nat → Int) × (Nat → Int) :=
  let pairs := (List.range COLORS_LEN).map fun col =>
    (col, st.colors.getD col 0, st.filter_colors.getD col 0)
  let colored_mana := listSum (pairs.map fun p => p.2.1 + p.2.2)
  let colored_filter_mana := listSum (pairs.map fun p => p.2.2)
  let state_lands0 := pairs.foldl
    (fun acc p => bumpBy acc (2 ^ p.1) (p.2.1 + p.2.2)) simple
  let state_filter_lands0 := pairs.foldl
    (fun acc p => bumpBy acc (2 ^ p.1) p.2.2) (fun _ => 0)
  (bumpBy state_lands0 0 (st.filter_total + st.total - colored_mana),
   bumpBy state_filter_lands0 0 (st.filter_total - colored_filter_mana))

/-- Lexicographic strict comparison of character lists by code point. -/
def chListLt : List Char → List Char → Bool
  | _, [] => false
  | [], _ :: _ => true
  | a :: as, b :: bs =>
    decide (a.toNat < b.toNat) || (decide (a.toNat = b.toNat) && chListLt as bs)

/-- Strict comparison of strings by code points, the Python string order. -/
def strLt (a b : String) : Bool := chListLt a.data b.data

/-- Stable insertion into a name-sorted list: insert strictly before the
first strictly larger name. -/
def insertByName (land : Land) : List Land → List Land
  | [] => [land]
  | x :: xs => if strLt land.name x.name then land :: x :: xs else x :: insertByName land xs

/-- Stable sort of the exotic lands by name, the semantics of the source
list sort with the name key. -/
def sortByName (ls : List Land) : List Land :=
  ls.foldl (fun acc l => insertByName l acc) []

/-- Best-first search loop of can_cast: pop the heuristically best state,
test it with the two oracle calls, and otherwise expand it according to the
type of the next exotic land. -/
def searchLoop (cost simple : Nat → Int) (other : List Land)
    (max_colors : List Int) (total_cost simple_land_count : Int) :
    Nat → QV → Bool
  | 0, _ => false
  | fuel + 1, qv =>
    if qv.1.size = 0 then false
    else
      let pr := AdjustableHeap.pop keyLt qv.1
      let state := pr.1
      let queue1 := pr.2
      let sl := stateLands simple state
      if can_cast_simple cost sl.1 0 &&
          can_cast_simple cost sl.2 (state.filter_cost - simple_land_count - state.total) then
        true
      else if state.land_index = other.length then
        searchLoop cost simple other max_colors total_cost simple_land_count fuel
          (queue1, qv.2)
      else
        let land := other.getD state.land_index default
        let succs : List SearchState :=
          match land.land_type with
          | .BEACON =>
            stateAdd max_colors total_cost state [] false 1 0 ::
              ((List.range COLORS_LEN).map fun a =>
                (List.range a).map fun b =>
                  stateAdd max_colors total_cost state [a, b] true 0 1).flatten
          | .LOTUS =>
            (List.range COLORS_LEN).map fun c =>
              stateAdd max_colors total_cost state [c, c, c] false 0 0
          | .FILTERING =>
            stateAdd max_colors total_cost state [] false 1 0 ::
              ((List.range COLORS_LEN).map fun c =>
                stateAdd max_colors total_cost state [c] false 0 1)
          | _ => []
        let qv2 := succs.foldl tryQueue (queue1, qv.2)
        searchLoop cost simple other max_colors total_cost simple_land_count fuel qv2

/-- Castability decider can_cast: expand X, bucket the lands, try the simple
fast path, rule out by the optimistic pool, then run the best-first search.
The search fuel is a crude upper bound on the number of distinct dedup'd
states, so the fuel never runs out before the queue empties. -/
def can_cast (spell : Spell) (lands : List Land) (X : Nat) : Bool :=
  let cost0 := spell.cost
  let cost :=
    if cost0 0 ≠ 0 then
      Function.update
        (Function.update cost0 ALL_COLORS_SET (cost0 ALL_COLORS_SET + cost0 0 * (X : Int)))
        0 0
    else cost0
  let b := bucketLands spell lands
  if can_cast_simple cost b.simple_lands 0 then true
  else if b.other_lands.length = 0 then false
  else
    let opt := b.other_lands.foldl
      (fun acc land =>
        match land.land_type with
        | .BEACON => (bumpBy acc.1 ALL_COLORS_SET 1, bumpBy acc.2 ALL_COLORS_SET 2)
        | .LOTUS => (acc.1, bumpBy acc.2 ALL_COLORS_SET 3)
        | .FILTERING => (acc.1, bumpBy acc.2 ALL_COLORS_SET 1)
        | _ => acc)
      (cost, b.simple_lands)
    if can_cast_simple opt.1 opt.2 0 = false then false
    else
      let max_colors : List Int := (List.range COLORS_LEN).map fun color =>
        listSum ((List.range 32).map fun s =>
          if s ≠ ALL_COLORS_SET ∧ 2 ^ color &&& s ≠ 0 then cost s else 0)
      let total_cost : Int := listSum ((List.range 32).map cost)
      let other := sortByName b.other_lands
      let simple_land_count : Int := listSum ((List.range 32).map b.simple_lands)
      let qv0 := tryQueue (#[], []) (mkStateNone max_colors total_cost)
      let L := other.length
      let B := (total_cost.natAbs + 3 * L + 2)
      let fuel := (L + 1) * (B + 1) * (B + 1) * (L + 1) * (B + 1) ^ 10 + 1
      searchLoop cost b.simple_lands other max_colors total_cost simple_land_count fuel qv0

/-- Cost table of the parsed mana cost of Nicol Bolas, Dragon-God: one U pip
(bitset 2), two B pips (bitset 4), one R pip (bitset 8). -/
def bolasCost : Nat → Int := fun c =>
  if c = 2 then 1 else if c = 4 then 2 else if c = 8 then 1 else 0

/-- The Planeswalker spell Nicol Bolas, Dragon-God. -/
def bolas : Spell := ⟨bolasCost, ["Planeswalker"], ["Bolas"]⟩

/-- Interplanar Beacon land record. -/
def beacon : Land := ⟨"Interplanar Beacon", .BEACON, 0⟩

/-- Mountain land record, producing R (bit 3). -/
def mountain : Land := ⟨"Mountain", .BASIC, 8⟩

/-- Island land record, producing U (bit 1). -/
def island : Land := ⟨"Island", .BASIC, 2⟩

end MTG





namespace MCF

/-- Edge record of the flow graph: endpoints, accumulated flow, capacity and
cost, all integers as in the source. -/
structure Edge where
  u : Nat
  v : Nat
  flow : Int
  capacity : Int
  cost : Int

instance : Inhabited Edge := ⟨⟨0, 0, 0, 0, 0⟩⟩

/-- Residual traversal of an edge starting at vertex u: the other endpoint,
the residual capacity, and the traversal cost. -/
def directed_edge (e : Edge) (u : Nat) : Nat × Int × Int :=
  if e.u = u then (e.v, e.capacity - e.flow, e.cost)
  else (e.u, e.flow, -e.cost)

/-- Push f units of flow through the edge in the direction leaving u. -/
def edgeAddFlow (e : Edge) (u : Nat) (f : Int) : Edge :=
  if e.u = u then ⟨e.u, e.v, e.flow + f, e.capacity, e.cost⟩
  else ⟨e.u, e.v, e.flow - f, e.capacity, e.cost⟩

/-- Flow network state: the edge list in insertion order (edges are referred
to by their index in this list) and the vertex potentials. -/
structure MinCostFlow where
  edges : List Edge
  potential : Nat → Int

/-- Freshly constructed MinCostFlow object. -/
def empty : MinCostFlow := ⟨[], fun _ => 0⟩

/-- Append a new edge with zero flow. -/
def add_edge (g : MinCostFlow) (u v : Nat) (capacity cost : Int) : MinCostFlow :=
  ⟨g.edges ++ [⟨u, v, 0, capacity, cost⟩], g.potential⟩

/-- Indexed edges incident to u, in insertion order, as the per-vertex
adjacency lists of the source hold them. -/
def adjacency (edges : List Edge) (u : Nat) : List (Nat × Edge) :=
  edges.enum.filter fun p => p.2.u = u ∨ p.2.v = u

/-- Value carried on the Dijkstra heap: vertex, tentative distance, and the
bottleneck so far (none only for the initial source entry of an uncapped
call). -/
abbrev HeapVal : Type := Nat × Int × Option Int

instance : Inhabited HeapVal := ⟨((0 : Nat), (0 : Int), (none : Option Int))⟩

/-- Heap comparison used by add_flow: compare the distance component. -/
def mcfLt (a b : Int) : Bool := decide (a < b)

/-- Heap key extraction used by add_flow: the distance component. -/
def mcfKey (x : HeapVal) : Int := x.2.1

/-- Entry of the dist map: tentative distance, predecessor edge index, and
bottleneck (for the source entry the source stores the running flow there;
only the sink entry of this slot is ever read). -/
abbrev DistEntry : Type := Int × Option Nat × Int

/-- Lookup of a vertex in the dist association list. -/
def dlookup (d : List (Nat × DistEntry)) (v : Nat) : Option DistEntry :=
  (d.find? fun p => decide (p.1 = v)).map fun p => p.2

/-- In-place update of a vertex entry in the dist association list. -/
def dupdate (d : List (Nat × DistEntry)) (v : Nat) (de : DistEntry) :
    List (Nat × DistEntry) :=
  d.map fun p => if p.1 = v then (v, de) else p

/-- Adjust-key on the live heap entry of vertex v, modelling the handle the
source keeps in its dist map: the handle of a vertex still on the heap is
the unique entry whose value starts with that vertex. -/
def adjustByVertex (heap : Array (AdjustableHeap.AdjustableHeapKey HeapVal Int))
    (v : Nat) (val : HeapVal) :
    Array (AdjustableHeap.AdjustableHeapKey HeapVal Int) :=
  match heap.findIdx? (fun e => e.val.1 = v) with
  | some j => AdjustableHeap.adjust_key mcfLt mcfKey heap j val
  | none => heap

/-- Relaxation of all edges out of a popped vertex u. -/
def relaxEdges (edges : List Edge) (potential : Nat → Int) (u : Nat) (dst : Int)
    (flow_cur : Option Int)
    (acc : Array (AdjustableHeap.AdjustableHeapKey HeapVal Int) × List (Nat × DistEntry)) :
    Array (AdjustableHeap.AdjustableHeapKey HeapVal Int) × List (Nat × DistEntry) :=
  (adjacency edges u).foldl
    (fun acc ie =>
      let de := directed_edge ie.2 u
      let v := de.1
      let cap := de.2.1
      let cost := de.2.2
      if cap = 0 then acc
      else
        let new_dist := dst + cost + potential u - potential v
        let nf : Int := match flow_cur with | none => cap | some fc => min fc cap
        match dlookup acc.2 v with
        | none =>
          (AdjustableHeap.push mcfLt mcfKey acc.1 (v, new_dist, some nf),
            acc.2 ++ [(v, (new_dist, some ie.1, nf))])
        | some vd =>
          if new_dist < vd.1 then
            (adjustByVertex acc.1 v (v, new_dist, some nf),
              dupdate acc.2 v (new_dist, some ie.1, nf))
          else acc)
    acc

/-- Dijkstra loop of add_flow on reduced costs, returning the dist map. -/
def dijkstraLoop (edges : List Edge) (potential : Nat → Int) :
    Nat → Array (AdjustableHeap.AdjustableHeapKey HeapVal Int) →
    List (Nat × DistEntry) → List (Nat × DistEntry)
  | 0, _, dist => dist
  | fuel + 1, heap, dist =>
    if heap.size = 0 then dist
    else
      let pr := AdjustableHeap.pop mcfLt heap
      let st := relaxEdges edges potential pr.1.1 pr.1.2.1 pr.1.2.2 (pr.2, dist)
      dijkstraLoop edges potential fuel st.1 st.2

/-- Augmenting-path walk from the sink back to the source, pushing the
bottleneck along every predecessor edge. -/
def walkPath (dist : List (Nat × DistEntry)) (bott : Int) :
    Nat → Nat → List Edge → List Edge
  | 0, _, es => es
  | fuel + 1, v, es =>
    match dlookup dist v with
    | none => es
    | some de =>
      match de.2.1 with
      | none => es
      | some ei =>
        let e := es.getD ei default
        let v2 := (directed_edge e v).1
        walkPath dist bott fuel v2 (es.set ei (edgeAddFlow e v2 bott))

/-- Outer successive-shortest-path loop of add_flow. -/
def addFlowLoop (src snk : Nat) (flow_max : Option Int) :
    Nat → List Edge → (Nat → Int) → Int → Int → Int × Int
  | 0, _, _, flow, flow_cost => (flow, flow_cost)
  | fuel + 1, edges, potential, flow, flow_cost =>
    let go := match flow_max with | none => true | some fm => decide (flow < fm)
    if go = false then (flow, flow_cost)
    else
      let init : HeapVal :=
        (src, 0, match flow_max with | none => none | some fm => some (fm - flow))
      let heap0 := AdjustableHeap.push mcfLt mcfKey #[] init
      let dist0 : List (Nat × DistEntry) := [(src, ((0 : Int), none, flow))]
      let dist := dijkstraLoop edges potential (2 * edges.length + 2) heap0 dist0
      match dlookup dist snk with
      | none => (flow, flow_cost)
      | some sd =>
        let bott := sd.2.2
        let flow2 := flow + bott
        let flow_cost2 := flow_cost + sd.1 + potential snk
        let potential2 := dist.foldl
          (fun p vd => Function.update p vd.1 (p vd.1 + vd.2.1)) potential
        let edges2 := walkPath dist bott (dist.length + 1) snk edges
        addFlowLoop src snk flow_max fuel edges2 potential2 flow2 flow_cost2

/-- The add_flow method: run successive shortest augmenting paths until the
sink is unreachable or the flow cap is reached, returning the added flow and
the accumulated cost counter. The fuel bounds the augmentation count by the
total capacity, which the loop can never exceed. -/
def add_flow (g : MinCostFlow) (src snk : Nat) (flow_max : Option Int) : Int × Int :=
  let fuel := (g.edges.foldl (fun a e => a + e.capacity.natAbs) 0) +
    (match flow_max with | none => 0 | some fm => fm.natAbs) + 2
  addFlowLoop src snk flow_max fuel g.edges g.potential 0 0

end MCF



/-- Heap operations instantiated with the Boolean strict comparison of a
linear order, the way Python compares the keys with the < operator. -/
def AdjustableHeap.oLt {K : Type} [LinearOrder K] : K → K → Bool :=
  fun a b => decide (a < b)

/-- Data invariant of the heap claimed by the specification: every non-root
entry compares at least its parent, and every entry records its own array
position in its index field. -/
def AdjustableHeap.heapInv {V K : Type} [Inhabited V] [Inhabited K] [LinearOrder K]
    (h : Array (AdjustableHeap.AdjustableHeapKey V K)) : Prop :=
  (∀ i, i < h.size → 0 < i →
    (AdjustableHeap.ent h (AdjustableHeap.par i)).comp_key ≤ (AdjustableHeap.ent h i).comp_key) ∧
  (∀ i, i < h.size → (AdjustableHeap.ent h i).index = i)

/-- Heap built by pushing the given values in order onto an empty heap. -/
def AdjustableHeap.pushAll {V K : Type} [Inhabited V] [Inhabited K] [LinearOrder K]
    (key_fn : V → K) (vs : List V) : Array (AdjustableHeap.AdjustableHeapKey V K) :=
  vs.foldl (AdjustableHeap.push AdjustableHeap.oLt key_fn) #[]

/-- Heap obtained after popping n times. -/
def AdjustableHeap.popN {V K : Type} [Inhabited V] [Inhabited K] [LinearOrder K] :
    Nat → Array (AdjustableHeap.AdjustableHeapKey V K) →
    Array (AdjustableHeap.AdjustableHeapKey V K)
  | 0, h => h
  | n + 1, h => AdjustableHeap.popN n (AdjustableHeap.pop AdjustableHeap.oLt h).2

/-- List of values obtained by popping the heap until it is empty. -/
def AdjustableHeap.drain {V K : Type} [Inhabited V] [Inhabited K] [LinearOrder K] :
    Nat → Array (AdjustableHeap.AdjustableHeapKey V K) → List V
  | 0, _ => []
  | fuel + 1, h =>
    if h.size = 0 then []
    else
      let pr := AdjustableHeap.pop AdjustableHeap.oLt h
      pr.1 :: AdjustableHeap.drain fuel pr.2

/-- Loosened invariant that holds while the adjust loops run: the heap
property holds for every parent-child pair not involving the hole position k,
every entry except the hole records its own position, and every child of the
hole compares at least the hole's parent. -/
def AdjustableHeap.AlmostInv {V K : Type} [Inhabited V] [Inhabited K] [LinearOrder K]
    (h : Array (AdjustableHeap.AdjustableHeapKey V K)) (k : Nat) : Prop :=
  (∀ i, i < h.size → 0 < i → i ≠ k → AdjustableHeap.par i ≠ k →
    (AdjustableHeap.ent h (AdjustableHeap.par i)).comp_key ≤
      (AdjustableHeap.ent h i).comp_key) ∧
  (∀ i, i < h.size → i ≠ k → (AdjustableHeap.ent h i).index = i) ∧
  (∀ r, r < h.size → AdjustableHeap.par r = k → 0 < k →
    (AdjustableHeap.ent h (AdjustableHeap.par k)).comp_key ≤
      (AdjustableHeap.ent h r).comp_key)

/-- The pair (value, comparison key) is stored somewhere in the heap. -/
def AdjustableHeap.pairIn {V K : Type} [Inhabited V] [Inhabited K]
    (h : Array (AdjustableHeap.AdjustableHeapKey V K)) (p : V × K) : Prop :=
  ∃ j, j < h.size ∧ (AdjustableHeap.ent h j).val = p.1 ∧
    (AdjustableHeap.ent h j).comp_key = p.2

/-- Every stored comparison key is the key function of the stored value. -/
def AdjustableHeap.WellFormed {V K : Type} [Inhabited V] [Inhabited K]
    (key_fn : V → K) (h : Array (AdjustableHeap.AdjustableHeapKey V K)) : Prop :=
  ∀ i, i < h.size → (AdjustableHeap.ent h i).comp_key = key_fn (AdjustableHeap.ent h i).val

instance heapInvDecidable {V K : Type} [Inhabited V] [Inhabited K] [LinearOrder K]
    (h : Array (AdjustableHeap.AdjustableHeapKey V K)) :
    Decidable (AdjustableHeap.heapInv h) := by
  unfold AdjustableHeap.heapInv
  infer_instance

namespace MTG

/-- Sum of the table over all subsets of the bitset s, the mathematical value
the lower Möbius transform computes. -/
def sumSubsets (freq : Nat → Int) (s : Nat) : Int :=
  ((Finset.range 32).filter fun t => t &&& s = t).sum freq

/-- View of a multiset table with natural counts as an integer counter. -/
def toCounter (f : Nat → Nat) : Nat → Int := fun s => (f s : Int)

/-- Payment relation of the brute-force matcher described by the
specification: a land with color set t can pay a pip with color set c when
the sets intersect, and a colorless land can pay only generic pips. -/
def payable (t c : Nat) : Prop := t &&& c ≠ 0 ∨ (t = 0 ∧ c = 31)

instance (t c : Nat) : Decidable (payable t c) := by
  unfold payable
  infer_instance

/-- Index type of all pip instances of a cost table. -/
abbrev PipIdx (cost : Nat → Nat) : Type := Σ c : Fin 32, Fin (cost c)

/-- Index type of all land instances of a land table. -/
abbrev LandIdx (lands : Nat → Nat) : Type := Σ t : Fin 32, Fin (lands t)

/-- The brute-force matcher of the specification succeeds: there is a
complete assignment of pips to pairwise distinct lands such that every land
can pay the pip assigned to it. -/
def matchingExists (cost lands : Nat → Nat) : Prop :=
  ∃ f : PipIdx cost → LandIdx lands,
    Function.Injective f ∧ ∀ p, payable ((f p).1 : Nat) (p.1 : Nat)

/-- Cost table of the counterexample: one pip of color set 23 and one pip of
color set 27. -/
def cexCost : Nat → Nat := fun c => if c = 23 then 1 else if c = 27 then 1 else 0

/-- Land table of the counterexample: one colorless land and one land of
color set 3. -/
def cexLands : Nat → Nat := fun t => if t = 0 then 1 else if t = 3 then 1 else 0

/-- A non-Planeswalker spell used to exhibit the beacon bucketing. -/
def creatureSpell : Spell := ⟨fun _ => 0, ["Creature"], []⟩

/-- A spell with an empty cost table. -/
def freeSpell : Spell := ⟨fun _ => 0, ["Sorcery"], []⟩

/-- Count of BEACON lands in a list. -/
def beaconCount (ls : List Land) : Nat :=
  (ls.filter fun l => l.land_type = .BEACON).length

end MTG

/-- Graph with the single edge from 0 to 1 of capacity 2 and cost 1. -/
def MCF.exGraph : MCF.MinCostFlow := MCF.add_edge MCF.empty 0 1 2 1

/-- Partial subset sum after the transform has processed the low k color
bits: sum of freq over the subsets t of j whose complement inside j lies in
the low k bits. -/
def MTG.partialSum (freq : Nat → Int) (k j : Nat) : Int :=
  ((Finset.range 32).filter fun t => t &&& j = t ∧ (j ^^^ t) &&& (2 ^ k - 1) = (j ^^^ t)).sum freq

/-- Set of pip instances whose color set is contained in the bitset s. -/
def MTG.pipsUnder (cost : Nat → Nat) (s : Nat) : Finset (MTG.PipIdx cost) :=
  Finset.univ.filter fun p => (p.1 : Nat) &&& s = (p.1 : Nat)

/-- Set of land instances whose color set is contained in the bitset s. -/
def MTG.landsUnder (lands : Nat → Nat) (s : Nat) : Finset (MTG.LandIdx lands) :=
  Finset.univ.filter fun q => (q.1 : Nat) &&& s = (q.1 : Nat)

/-- Set of land instances whose color set intersects the bitset s. -/
def MTG.landsMeeting (lands : Nat → Nat) (s : Nat) : Finset (MTG.LandIdx lands) :=
  Finset.univ.filter fun q => (q.1 : Nat) &&& s ≠ 0

/-- Set of pip instances that are not generic. -/
def MTG.pipsNonGeneric (cost : Nat → Nat) : Finset (MTG.PipIdx cost) :=
  Finset.univ.filter fun p => (p.1 : Nat) ≠ 31

/-- Lands that can pay a given pip instance. -/
def MTG.Tmap (cost lands : Nat → Nat) (p : MTG.PipIdx cost) : Finset (MTG.LandIdx lands) :=
  Finset.univ.filter fun q => MTG.payable (q.1 : Nat) (p.1 : Nat)

/-- Bit-or of the color sets of a set of pip instances. -/
def MTG.colorsUnion (cost : Nat → Nat) (A : Finset (MTG.PipIdx cost)) : Nat :=
  A.fold (· ||| ·) 0 fun p => (p.1 : Nat)

/-- The pip instance of color set 23 in the counterexample cost. -/
def MTG.cexPip1 : MTG.PipIdx MTG.cexCost := ⟨⟨23, by omega⟩, ⟨0, by decide⟩⟩

/-- The pip instance of color set 27 in the counterexample cost. -/
def MTG.cexPip2 : MTG.PipIdx MTG.cexCost := ⟨⟨27, by omega⟩, ⟨0, by decide⟩⟩

/-- The land instance of color set 3 in the counterexample lands. -/
def MTG.cexLand3 : MTG.LandIdx MTG.cexLands := ⟨⟨3, by omega⟩, ⟨0, by decide⟩⟩


/-- The body of the relaxation fold of relaxEdges for a run that carries a
bottleneck (the capped call always does): the match on the optional bottleneck
is already reduced to the min with the running bottleneck fc. -/
def MCF.relaxStep (potential : Nat → Int) (u : Nat) (dst fc : Int)
    (acc : Array (AdjustableHeap.AdjustableHeapKey MCF.HeapVal Int) ×
      List (Nat × MCF.DistEntry)) (ie : Nat × MCF.Edge) :
    Array (AdjustableHeap.AdjustableHeapKey MCF.HeapVal Int) ×
      List (Nat × MCF.DistEntry) :=
  let de := MCF.directed_edge ie.2 u
  let v := de.1
  let cap := de.2.1
  let cost := de.2.2
  if cap = 0 then acc
  else
    let new_dist := dst + cost + potential u - potential v
    let nf : Int := min fc cap
    match MCF.dlookup acc.2 v with
    | none =>
      (AdjustableHeap.push MCF.mcfLt MCF.mcfKey acc.1 (v, new_dist, some nf),
        acc.2 ++ [(v, (new_dist, some ie.1, nf))])
    | some vd =>
      if new_dist < vd.1 then
        (MCF.adjustByVertex acc.1 v (v, new_dist, some nf),
          MCF.dupdate acc.2 v (new_dist, some ie.1, nf))
      else acc

/-- Every value on the Dijkstra heap carries a bottleneck of at most b. -/
def MCF.heapBound (b : Int)
    (heap : Array (AdjustableHeap.AdjustableHeapKey MCF.HeapVal Int)) : Prop :=
  ∀ j, j < heap.size → ∃ f, (AdjustableHeap.ent heap j).val.2.2 = some f ∧ f ≤ b

/-- Every non-source entry of the dist map carries a bottleneck of at most
b (the source entry stores the running flow instead). -/
def MCF.distBound (src : Nat) (b : Int) (dist : List (Nat × MCF.DistEntry)) : Prop :=
  ∀ p, p ∈ dist → p.1 ≠ src → p.2.2.2 ≤ b

-- ===================== THEOREMS =====================

namespace AdjustableHeap

variable {V K : Type} [Inhabited V] [Inhabited K] [LinearOrder K]

theorem oLt_true {a b : K} (h : oLt a b = true) : a < b := by
  simpa [oLt] using h

theorem oLt_false {a b : K} (h : ¬ oLt a b = true) : b ≤ a := by
  simp only [oLt, decide_eq_true_eq] at h
  exact le_of_not_lt h

theorem par_lt {i : Nat} (hi : 0 < i) : par i < i := by
  unfold par; omega

theorem par_left (i : Nat) : par (2 * i + 1) = i := by
  unfold par; omega

theorem par_right (i : Nat) : par (2 * i + 2) = i := by
  unfold par; omega

theorem par_child {r k : Nat} (h : par r = k) (hr : r ≠ k) :
    r = 2 * k + 1 ∨ r = 2 * k + 2 := by
  unfold par at h; omega

theorem ent_setD_self (h : Array (AdjustableHeapKey V K)) {i : Nat}
    (x : AdjustableHeapKey V K) (hi : i < h.size) : ent (h.setD i x) i = x := by
  unfold ent
  have hi' : i < (h.setD i x).size := by simpa using hi
  rw [Array.getD, dif_pos hi']
  exact Array.getElem_setD h i x hi'

theorem ent_setD_ne (h : Array (AdjustableHeapKey V K)) {i j : Nat}
    (x : AdjustableHeapKey V K) (hne : j ≠ i) : ent (h.setD i x) j = ent h j := by
  by_cases hi : i < h.size
  · have hset : h.setD i x = h.set ⟨i, hi⟩ x := by
      unfold Array.setD; rw [dif_pos hi]
    rw [hset]
    unfold ent
    simp only [Array.getD_eq_get?]
    rw [Array.getElem?_set_ne h ⟨i, hi⟩ x (fun hc => hne hc.symm)]
  · have hset : h.setD i x = h := by
      unfold Array.setD; rw [dif_neg hi]
    rw [hset]

theorem ent_push_lt (h : Array (AdjustableHeapKey V K)) (x : AdjustableHeapKey V K)
    {j : Nat} (hj : j < h.size) : ent (h.push x) j = ent h j := by
  unfold ent
  have hj' : j < (h.push x).size := by simp; omega
  rw [Array.getD, dif_pos hj', Array.getD, dif_pos hj]
  exact Array.getElem_push_lt h x j hj

theorem ent_push_self (h : Array (AdjustableHeapKey V K)) (x : AdjustableHeapKey V K) :
    ent (h.push x) h.size = x := by
  unfold ent
  have hj' : h.size < (h.push x).size := by simp
  rw [Array.getD, dif_pos hj']
  exact Array.getElem_push_eq h x

theorem ent_pop (h : Array (AdjustableHeapKey V K)) {j : Nat}
    (hj : j < h.size - 1) : ent h.pop j = ent h j := by
  unfold ent
  have hj' : j < h.pop.size := by simpa using hj
  have hjs : j < h.size := by omega
  rw [Array.getD, dif_pos hj', Array.getD, dif_pos hjs]
  exact Array.getElem_pop h j hj'

end AdjustableHeap

namespace AdjustableHeap

variable {V K : Type} [Inhabited V] [Inhabited K] [LinearOrder K]

theorem heapInv_almost (h : Array (AdjustableHeapKey V K)) (hinv : heapInv h)
    {k : Nat} (hk : k < h.size) : AlmostInv h k := by
  obtain ⟨H1, H2⟩ := hinv
  refine ⟨fun i hi hi0 _ _ => H1 i hi hi0, fun i hi _ => H2 i hi, ?_⟩
  intro r hr hpr hk0
  have hr0 : 0 < r := by
    rcases Nat.eq_zero_or_pos r with h0 | h0
    · subst h0
      rw [show par 0 = 0 from rfl] at hpr
      omega
    · exact h0
  have h1 := H1 k hk hk0
  have h2 := H1 r hr hr0
  rw [hpr] at h2
  exact le_trans h1 h2

theorem bubbleUp_step (h : Array (AdjustableHeapKey V K))
    {k : Nat} (hai : AlmostInv h k) (hk : k < h.size) (hk0 : k ≠ 0) :
    AlmostInv (h.setD k ⟨(ent h (par k)).val, (ent h (par k)).comp_key, k⟩) (par k) := by
  obtain ⟨H1, H2, H3⟩ := hai
  have hkpos : 0 < k := Nat.pos_of_ne_zero hk0
  have hpk : par k < k := par_lt hkpos
  set x : AdjustableHeapKey V K := ⟨(ent h (par k)).val, (ent h (par k)).comp_key, k⟩ with hx
  have hsize : (h.setD k x).size = h.size := Array.size_setD h k x
  have hek : ent (h.setD k x) k = x := ent_setD_self h x hk
  have hene : ∀ j, j ≠ k → ent (h.setD k x) j = ent h j := fun j hj => ent_setD_ne h x hj
  refine ⟨?_, ?_, ?_⟩
  · intro i hi hi0 hipk hppk
    rw [hsize] at hi
    by_cases hik : i = k
    · exact absurd (show par i = par k by rw [hik]) hppk
    · by_cases hpik : par i = k
      · rw [hene i hik, hpik, hek]
        exact H3 i hi hpik hkpos
      · rw [hene i hik, hene (par i) hpik]
        exact H1 i hi hi0 hik hpik
  · intro i hi hipk
    rw [hsize] at hi
    by_cases hik : i = k
    · rw [hik, hek]
    · rw [hene i hik]
      exact H2 i hi hik
  · intro r hr hparr hpkpos
    rw [hsize] at hr
    have hppk : par (par k) < par k := par_lt hpkpos
    have hppk_ne : par (par k) ≠ k := by omega
    have h1 := H1 (par k) (lt_trans hpk hk) hpkpos (by omega) hppk_ne
    by_cases hrk : r = k
    · rw [hrk, hek, hene (par (par k)) hppk_ne]
      exact h1
    · have hr0 : 0 < r := by
        rcases Nat.eq_zero_or_pos r with h0 | h0
        · subst h0
          rw [show par 0 = 0 from rfl] at hparr
          omega
        · exact h0
      have h2 := H1 r hr hr0 hrk (by rw [hparr]; omega)
      rw [hparr] at h2
      rw [hene r hrk, hene (par (par k)) hppk_ne]
      exact le_trans h1 h2

theorem bubbleUpGo_spec (key : AdjustableHeapKey V K) :
    ∀ (fuel : Nat) (h : Array (AdjustableHeapKey V K)) (k : Nat),
      AlmostInv h k → k < h.size → k ≤ fuel →
      (bubbleUpGo oLt key fuel h k).1.size = h.size ∧
      (bubbleUpGo oLt key fuel h k).2 ≤ k ∧
      AlmostInv (bubbleUpGo oLt key fuel h k).1 (bubbleUpGo oLt key fuel h k).2 ∧
      (0 < (bubbleUpGo oLt key fuel h k).2 →
        (ent (bubbleUpGo oLt key fuel h k).1
          (par (bubbleUpGo oLt key fuel h k).2)).comp_key ≤ key.comp_key) ∧
      (∀ j, j < h.size →
        pairIn h ((ent (bubbleUpGo oLt key fuel h k).1 j).val,
          (ent (bubbleUpGo oLt key fuel h k).1 j).comp_key)) := by
  intro fuel
  induction fuel with
  | zero =>
    intro h k hai hk hf
    have hk0 : k = 0 := Nat.le_zero.mp hf
    subst hk0
    have hred : bubbleUpGo oLt key 0 h 0 = (h, 0) := rfl
    rw [hred]
    exact ⟨rfl, le_rfl, hai, fun hc => absurd hc (by omega),
      fun j hj => ⟨j, hj, rfl, rfl⟩⟩
  | succ fuel ih =>
    intro h k hai hk hf
    by_cases hk0 : k = 0
    · subst hk0
      have hred : bubbleUpGo oLt key (fuel + 1) h 0 = (h, 0) := by
        simp [bubbleUpGo]
      rw [hred]
      exact ⟨rfl, le_rfl, hai, fun hc => absurd hc (by omega),
        fun j hj => ⟨j, hj, rfl, rfl⟩⟩
    · by_cases hlt : oLt key.comp_key (ent h (par k)).comp_key = true
      · have hred : bubbleUpGo oLt key (fuel + 1) h k =
            bubbleUpGo oLt key fuel
              (h.setD k ⟨(ent h (par k)).val, (ent h (par k)).comp_key, k⟩) (par k) := by
          simp only [bubbleUpGo]
          rw [if_neg hk0, if_pos hlt]
        rw [hred]
        have hkpos : 0 < k := Nat.pos_of_ne_zero hk0
        have hpk : par k < k := par_lt hkpos
        have hsize :
            (h.setD k ⟨(ent h (par k)).val, (ent h (par k)).comp_key, k⟩).size = h.size :=
          Array.size_setD _ _ _
        have hai' := bubbleUp_step h hai hk hk0
        obtain ⟨s1, s2, s3, s4, s5⟩ := ih _ (par k) hai'
          (by rw [hsize]; exact lt_trans hpk hk) (by omega)
        refine ⟨by rw [s1, hsize], by omega, s3, s4, ?_⟩
        intro j hj
        obtain ⟨jo, hjo, hv, hc⟩ := s5 j (by rw [hsize]; exact hj)
        rw [hsize] at hjo
        by_cases hjk : jo = k
        · rw [hjk, ent_setD_self h _ hk] at hv hc
          exact ⟨par k, lt_trans hpk hk, hv, hc⟩
        · rw [ent_setD_ne h _ hjk] at hv hc
          exact ⟨jo, hjo, hv, hc⟩
      · have hred : bubbleUpGo oLt key (fuel + 1) h k = (h, k) := by
          simp only [bubbleUpGo]
          rw [if_neg hk0, if_neg hlt]
        rw [hred]
        exact ⟨rfl, le_rfl, hai, fun _ => oLt_false hlt, fun j hj => ⟨j, hj, rfl, rfl⟩⟩

theorem place_inv (h : Array (AdjustableHeapKey V K)) (key : AdjustableHeapKey V K)
    {k : Nat} (hai : AlmostInv h k) (hk : k < h.size)
    (hpar : 0 < k → (ent h (par k)).comp_key ≤ key.comp_key)
    (hch : ∀ j, j < h.size → par j = k → j ≠ k →
      key.comp_key ≤ (ent h j).comp_key) :
    heapInv (h.setD k ⟨key.val, key.comp_key, k⟩) := by
  obtain ⟨H1, H2, _⟩ := hai
  set x : AdjustableHeapKey V K := ⟨key.val, key.comp_key, k⟩ with hx
  have hsize : (h.setD k x).size = h.size := Array.size_setD h k x
  have hek : ent (h.setD k x) k = x := ent_setD_self h x hk
  have hene : ∀ j, j ≠ k → ent (h.setD k x) j = ent h j := fun j hj => ent_setD_ne h x hj
  refine ⟨?_, ?_⟩
  · intro i hi hi0
    rw [hsize] at hi
    by_cases hik : i = k
    · have hkpos : 0 < k := by omega
      have hpkne : par k ≠ k := by have := par_lt hkpos; omega
      rw [hik, hek, hene (par k) hpkne]
      exact hpar hkpos
    · by_cases hpik : par i = k
      · rw [hene i hik, hpik, hek]
        exact hch i hi hpik hik
      · rw [hene i hik, hene (par i) hpik]
        exact H1 i hi hi0 hik hpik
  · intro i hi
    rw [hsize] at hi
    by_cases hik : i = k
    · rw [hik, hek]
    · rw [hene i hik]
      exact H2 i hi hik

theorem bubbleDown_step (h : Array (AdjustableHeapKey V K)) {k mi : Nat}
    (hai : AlmostInv h k) (hk : k < h.size) (hmilt : mi < h.size)
    (hmip : par mi = k) (hkmi : k < mi)
    (hmin : ∀ j, j < h.size → par j = k → j ≠ k →
      (ent h mi).comp_key ≤ (ent h j).comp_key) :
    AlmostInv (h.setD k ⟨(ent h mi).val, (ent h mi).comp_key, k⟩) mi := by
  obtain ⟨H1, H2, H3⟩ := hai
  set x : AdjustableHeapKey V K := ⟨(ent h mi).val, (ent h mi).comp_key, k⟩ with hx
  have hsize : (h.setD k x).size = h.size := Array.size_setD h k x
  have hek : ent (h.setD k x) k = x := ent_setD_self h x hk
  have hene : ∀ j, j ≠ k → ent (h.setD k x) j = ent h j := fun j hj => ent_setD_ne h x hj
  have hmik : mi ≠ k := by omega
  refine ⟨?_, ?_, ?_⟩
  · intro i hi hi0 himi hpimi
    rw [hsize] at hi
    by_cases hik : i = k
    · have hpkne : par k ≠ k := by have := par_lt (hik ▸ hi0); omega
      rw [hik, hek, hene (par k) hpkne]
      exact H3 mi hmilt hmip (hik ▸ hi0)
    · by_cases hpik : par i = k
      · rw [hene i hik, hpik, hek]
        exact hmin i hi hpik hik
      · rw [hene i hik, hene (par i) hpik]
        exact H1 i hi hi0 hik hpik
  · intro i hi himi
    rw [hsize] at hi
    by_cases hik : i = k
    · rw [hik, hek]
    · rw [hene i hik]
      exact H2 i hi hik
  · intro r hr hpr hmi0
    rw [hsize] at hr
    have hrmi : r ≠ mi := by
      intro he
      rw [he] at hpr
      unfold par at hpr
      omega
    have hr2 : r = 2 * mi + 1 ∨ r = 2 * mi + 2 := par_child hpr hrmi
    have hrk : r ≠ k := by omega
    have h2 := H1 r hr (by omega) hrk (by rw [hpr]; omega)
    rw [hpr] at h2
    rw [hmip, hek, hene r hrk]
    exact h2

end AdjustableHeap

namespace AdjustableHeap

variable {V K : Type} [Inhabited V] [Inhabited K] [LinearOrder K]

theorem bubbleDownGo_spec (key : AdjustableHeapKey V K) :
    ∀ (fuel : Nat) (h : Array (AdjustableHeapKey V K)) (k : Nat),
      AlmostInv h k → k < h.size → h.size ≤ fuel + k + 1 →
      (0 < k → (ent h (par k)).comp_key ≤ key.comp_key) →
      (bubbleDownGo oLt key fuel h k).1.size = h.size ∧
      (bubbleDownGo oLt key fuel h k).2 < h.size ∧
      heapInv ((bubbleDownGo oLt key fuel h k).1.setD (bubbleDownGo oLt key fuel h k).2
        ⟨key.val, key.comp_key, (bubbleDownGo oLt key fuel h k).2⟩) ∧
      (∀ j, j < h.size →
        pairIn h ((ent (bubbleDownGo oLt key fuel h k).1 j).val,
          (ent (bubbleDownGo oLt key fuel h k).1 j).comp_key)) := by
  intro fuel
  induction fuel with
  | zero =>
    intro h k hai hk hf hpar
    have hred : bubbleDownGo oLt key 0 h k = (h, k) := rfl
    rw [hred]
    refine ⟨rfl, hk, ?_, fun j hj => ⟨j, hj, rfl, rfl⟩⟩
    refine place_inv h key hai hk hpar ?_
    intro j hj hpj hjk
    rcases par_child hpj hjk with h1 | h1 <;> omega
  | succ fuel ih =>
    intro h k hai hk hf hpar
    by_cases hch : 2 * k + 1 < h.size
    · have hstep : ∀ mi : Nat, (mi = 2 * k + 1 ∨ mi = 2 * k + 2) → mi < h.size →
          (∀ j, j < h.size → par j = k → j ≠ k →
            (ent h mi).comp_key ≤ (ent h j).comp_key) →
          ¬ oLt key.comp_key (ent h mi).comp_key = true →
          (bubbleDownGo oLt key fuel
              (h.setD k ⟨(ent h mi).val, (ent h mi).comp_key, k⟩) mi).1.size = h.size ∧
          (bubbleDownGo oLt key fuel
              (h.setD k ⟨(ent h mi).val, (ent h mi).comp_key, k⟩) mi).2 < h.size ∧
          heapInv ((bubbleDownGo oLt key fuel
              (h.setD k ⟨(ent h mi).val, (ent h mi).comp_key, k⟩) mi).1.setD
            (bubbleDownGo oLt key fuel
              (h.setD k ⟨(ent h mi).val, (ent h mi).comp_key, k⟩) mi).2
            ⟨key.val, key.comp_key,
              (bubbleDownGo oLt key fuel
                (h.setD k ⟨(ent h mi).val, (ent h mi).comp_key, k⟩) mi).2⟩) ∧
          (∀ j, j < h.size →
            pairIn h ((ent (bubbleDownGo oLt key fuel
                (h.setD k ⟨(ent h mi).val, (ent h mi).comp_key, k⟩) mi).1 j).val,
              (ent (bubbleDownGo oLt key fuel
                (h.setD k ⟨(ent h mi).val, (ent h mi).comp_key, k⟩) mi).1 j).comp_key)) := by
        intro mi hmi2 hmilt hmin hkey
        have hmip : par mi = k := by
          rcases hmi2 with he | he
          · rw [he]; exact par_left k
          · rw [he]; exact par_right k
        have hkmi : k < mi := by omega
        have hai' := bubbleDown_step h hai hk hmilt hmip hkmi hmin
        have hsz : (h.setD k ⟨(ent h mi).val, (ent h mi).comp_key, k⟩).size = h.size :=
          Array.size_setD _ _ _
        have hpar2 : 0 < mi →
            (ent (h.setD k ⟨(ent h mi).val, (ent h mi).comp_key, k⟩)
              (par mi)).comp_key ≤ key.comp_key := by
          intro hmi0
          rw [hmip, ent_setD_self h _ hk]
          exact oLt_false hkey
        obtain ⟨s1, s2, s3, s4⟩ := ih (h.setD k ⟨(ent h mi).val, (ent h mi).comp_key, k⟩) mi
          hai' (by rw [hsz]; exact hmilt) (by omega) hpar2
        refine ⟨by rw [s1, hsz], by rw [hsz] at s2; exact s2, s3, ?_⟩
        intro j hj
        obtain ⟨jo, hjo, hv, hc⟩ := s4 j (by rw [hsz]; exact hj)
        rw [hsz] at hjo
        by_cases hjk : jo = k
        · rw [hjk, ent_setD_self h _ hk] at hv hc
          exact ⟨mi, hmilt, hv, hc⟩
        · rw [ent_setD_ne h _ hjk] at hv hc
          exact ⟨jo, hjo, hv, hc⟩
      by_cases hcond : (decide (2 * k + 2 < h.size) &&
          oLt (ent h (2 * k + 2)).comp_key (ent h (2 * k + 1)).comp_key) = true
      · have hcond' := Bool.and_eq_true_iff.mp hcond
        have hri : 2 * k + 2 < h.size := of_decide_eq_true hcond'.1
        have hlt2 : (ent h (2 * k + 2)).comp_key < (ent h (2 * k + 1)).comp_key :=
          oLt_true hcond'.2
        have hmin : ∀ j, j < h.size → par j = k → j ≠ k →
            (ent h (2 * k + 2)).comp_key ≤ (ent h j).comp_key := by
          intro j hj hpj hjk
          rcases par_child hpj hjk with h1 | h1
          · rw [h1]; exact le_of_lt hlt2
          · rw [h1]
        by_cases hkey : oLt key.comp_key (ent h (2 * k + 2)).comp_key = true
        · have hred : bubbleDownGo oLt key (fuel + 1) h k = (h, k) := by
            simp only [bubbleDownGo]
            rw [if_pos hch, if_pos hcond, if_pos hkey]
          rw [hred]
          refine ⟨rfl, hk, ?_, fun j hj => ⟨j, hj, rfl, rfl⟩⟩
          refine place_inv h key hai hk hpar ?_
          intro j hj hpj hjk
          exact le_trans (le_of_lt (oLt_true hkey)) (hmin j hj hpj hjk)
        · have hred : bubbleDownGo oLt key (fuel + 1) h k =
              bubbleDownGo oLt key fuel
                (h.setD k ⟨(ent h (2 * k + 2)).val, (ent h (2 * k + 2)).comp_key, k⟩)
                (2 * k + 2) := by
            simp only [bubbleDownGo]
            rw [if_pos hch, if_pos hcond, if_neg hkey]
          rw [hred]
          exact hstep (2 * k + 2) (Or.inr rfl) hri hmin hkey
      · have hle2 : 2 * k + 2 < h.size →
            (ent h (2 * k + 1)).comp_key ≤ (ent h (2 * k + 2)).comp_key := by
          intro hri
          by_cases ho : oLt (ent h (2 * k + 2)).comp_key (ent h (2 * k + 1)).comp_key = true
          · refine absurd ?_ hcond
            rw [decide_eq_true hri, ho]
            rfl
          · exact oLt_false ho
        have hmin : ∀ j, j < h.size → par j = k → j ≠ k →
            (ent h (2 * k + 1)).comp_key ≤ (ent h j).comp_key := by
          intro j hj hpj hjk
          rcases par_child hpj hjk with h1 | h1
          · rw [h1]
          · rw [h1]; exact hle2 (h1 ▸ hj)
        by_cases hkey : oLt key.comp_key (ent h (2 * k + 1)).comp_key = true
        · have hred : bubbleDownGo oLt key (fuel + 1) h k = (h, k) := by
            simp only [bubbleDownGo]
            rw [if_pos hch, if_neg hcond, if_pos hkey]
          rw [hred]
          refine ⟨rfl, hk, ?_, fun j hj => ⟨j, hj, rfl, rfl⟩⟩
          refine place_inv h key hai hk hpar ?_
          intro j hj hpj hjk
          exact le_trans (le_of_lt (oLt_true hkey)) (hmin j hj hpj hjk)
        · have hred : bubbleDownGo oLt key (fuel + 1) h k =
              bubbleDownGo oLt key fuel
                (h.setD k ⟨(ent h (2 * k + 1)).val, (ent h (2 * k + 1)).comp_key, k⟩)
                (2 * k + 1) := by
            simp only [bubbleDownGo]
            rw [if_pos hch, if_neg hcond, if_neg hkey]
          rw [hred]
          exact hstep (2 * k + 1) (Or.inl rfl) hch hmin hkey
    · have hred : bubbleDownGo oLt key (fuel + 1) h k = (h, k) := by
        simp only [bubbleDownGo]
        rw [if_neg hch]
      rw [hred]
      refine ⟨rfl, hk, ?_, fun j hj => ⟨j, hj, rfl, rfl⟩⟩
      refine place_inv h key hai hk hpar ?_
      intro j hj hpj hjk
      rcases par_child hpj hjk with h1 | h1 <;> omega

theorem adjust_spec (h : Array (AdjustableHeapKey V K)) (key : AdjustableHeapKey V K)
    (hai : AlmostInv h key.index) (hk : key.index < h.size) :
    (adjust oLt h key).size = h.size ∧ heapInv (adjust oLt h key) ∧
    ∀ j, j < h.size →
      ((ent (adjust oLt h key) j).val = key.val ∧
        (ent (adjust oLt h key) j).comp_key = key.comp_key) ∨
      pairIn h ((ent (adjust oLt h key) j).val, (ent (adjust oLt h key) j).comp_key) := by
  obtain ⟨u1, u2, u3, u4, u5⟩ := bubbleUpGo_spec key key.index h key.index hai hk le_rfl
  set r1 := bubbleUpGo oLt key key.index h key.index with hr1
  obtain ⟨d1, d2, d3, d4⟩ := bubbleDownGo_spec key r1.1.size r1.1 r1.2
    u3 (by rw [u1]; omega) (by omega) u4
  set r2 := bubbleDownGo oLt key r1.1.size r1.1 r1.2 with hr2
  have hadj : adjust oLt h key = r2.1.setD r2.2 ⟨key.val, key.comp_key, r2.2⟩ := rfl
  rw [u1] at d1 d2
  have hsz : (adjust oLt h key).size = h.size := by
    rw [hadj, Array.size_setD, d1]
  refine ⟨hsz, by rw [hadj]; exact d3, ?_⟩
  intro j hj
  by_cases hjr : j = r2.2
  · left
    rw [hadj, hjr]
    rw [ent_setD_self r2.1 _ (by rw [d1]; exact d2)]
    exact ⟨rfl, rfl⟩
  · right
    rw [hadj, ent_setD_ne r2.1 _ hjr]
    obtain ⟨jo, hjo, hv, hc⟩ := d4 j (by rw [u1]; exact hj)
    rw [u1] at hjo
    obtain ⟨jo2, hjo2, hv2, hc2⟩ := u5 jo hjo
    exact ⟨jo2, hjo2, hv2.trans hv, hc2.trans hc⟩

end AdjustableHeap

namespace AdjustableHeap

variable {V K : Type} [Inhabited V] [Inhabited K] [LinearOrder K]

theorem pairIn_elim {h : Array (AdjustableHeapKey V K)} {a : V} {b : K}
    (hp : pairIn h (a, b)) :
    ∃ jo, jo < h.size ∧ (ent h jo).val = a ∧ (ent h jo).comp_key = b := hp

theorem heapInv_empty : heapInv (#[] : Array (AdjustableHeapKey V K)) := by
  constructor <;> intro i hi <;> exact absurd hi (Nat.not_lt_zero i)

theorem wellFormed_empty (key_fn : V → K) :
    WellFormed key_fn (#[] : Array (AdjustableHeapKey V K)) := by
  intro i hi
  exact absurd hi (Nat.not_lt_zero i)

theorem push_spec (key_fn : V → K) (h : Array (AdjustableHeapKey V K)) (v : V)
    (hinv : heapInv h) :
    (push oLt key_fn h v).size = h.size + 1 ∧ heapInv (push oLt key_fn h v) ∧
    ∀ j, j < h.size + 1 →
      ((ent (push oLt key_fn h v) j).val = v ∧
        (ent (push oLt key_fn h v) j).comp_key = key_fn v) ∨
      pairIn h ((ent (push oLt key_fn h v) j).val,
        (ent (push oLt key_fn h v) j).comp_key) := by
  obtain ⟨H1, H2⟩ := hinv
  set e : AdjustableHeapKey V K := ⟨v, key_fn v, h.size⟩ with he
  have hps : (h.push e).size = h.size + 1 := Array.size_push h e
  have hai : AlmostInv (h.push e) h.size := by
    refine ⟨?_, ?_, ?_⟩
    · intro i hi hi0 hik hpik
      rw [hps] at hi
      have hilt : i < h.size := by omega
      have hplt : par i < h.size := by have := par_lt hi0; omega
      rw [ent_push_lt h e hilt, ent_push_lt h e hplt]
      exact H1 i hilt hi0
    · intro i hi hik
      rw [hps] at hi
      have hilt : i < h.size := by omega
      rw [ent_push_lt h e hilt]
      exact H2 i hilt
    · intro r hr hpr hk0
      rw [hps] at hr
      have hrk : r ≠ h.size := by
        intro he
        rw [he] at hpr
        unfold par at hpr
        omega
      have hr2 : r = 2 * h.size + 1 ∨ r = 2 * h.size + 2 := par_child hpr hrk
      omega
  have hpush : push oLt key_fn h v = adjust oLt (h.push e) e := rfl
  obtain ⟨a1, a2, a3⟩ := adjust_spec (h.push e) e hai
    (by rw [hps]; exact Nat.lt_succ_self h.size)
  rw [hpush]
  refine ⟨by rw [a1, hps], a2, ?_⟩
  intro j hj
  rcases a3 j (by rw [hps]; omega) with hl | hpr
  · exact Or.inl hl
  · obtain ⟨jo, hjo, hv', hc'⟩ := pairIn_elim hpr
    rw [hps] at hjo
    by_cases hjs : jo = h.size
    · rw [hjs, ent_push_self h e] at hv' hc'
      exact Or.inl ⟨hv'.symm, hc'.symm⟩
    · rw [ent_push_lt h e (by omega)] at hv' hc'
      exact Or.inr ⟨jo, by omega, hv', hc'⟩

theorem pop_fst (h : Array (AdjustableHeapKey V K)) :
    (pop oLt h).1 = (ent h 0).val := by
  simp only [pop]
  split <;> rfl

theorem pop_spec (h : Array (AdjustableHeapKey V K)) (hinv : heapInv h)
    (hpos : 0 < h.size) :
    (pop oLt h).2.size = h.size - 1 ∧ heapInv (pop oLt h).2 ∧
    ∀ j, j < h.size - 1 →
      pairIn h ((ent (pop oLt h).2 j).val, (ent (pop oLt h).2 j).comp_key) := by
  obtain ⟨H1, H2⟩ := hinv
  by_cases h1 : h.size = 1
  · have hred : (pop oLt h).2 = #[] := by
      simp only [pop]
      rw [if_pos h1]
    rw [hred]
    refine ⟨by rw [h1]; rfl, heapInv_empty, ?_⟩
    intro j hj
    rw [h1] at hj
    exact absurd hj (by omega)
  · have hge : 2 ≤ h.size := by omega
    set last := ent h (h.size - 1) with hlast
    set key : AdjustableHeapKey V K := ⟨last.val, last.comp_key, 0⟩ with hkey
    have hred : (pop oLt h).2 = adjust oLt ((h.pop).setD 0 key) key := by
      simp only [pop]
      rw [if_neg h1]
    have hps : (h.pop).size = h.size - 1 := Array.size_pop h
    have hsz : ((h.pop).setD 0 key).size = h.size - 1 := by rw [Array.size_setD, hps]
    have hene : ∀ j, j ≠ 0 → j < h.size - 1 → ent ((h.pop).setD 0 key) j = ent h j := by
      intro j hj hjs
      rw [ent_setD_ne (h.pop) key hj, ent_pop h hjs]
    have hai : AlmostInv ((h.pop).setD 0 key) 0 := by
      refine ⟨?_, ?_, ?_⟩
      · intro i hi hi0 hik hpik
        rw [hsz] at hi
        rw [hene i (by omega) hi, hene (par i) hpik (by have := par_lt hi0; omega)]
        exact H1 i (by omega) hi0
      · intro i hi hik
        rw [hsz] at hi
        rw [hene i hik hi]
        exact H2 i (by omega)
      · intro r hr hpr h00
        omega
    obtain ⟨a1, a2, a3⟩ := adjust_spec ((h.pop).setD 0 key) key hai
      (by rw [hsz]; show 0 < h.size - 1; omega)
    rw [hred]
    refine ⟨by rw [a1, hsz], a2, ?_⟩
    intro j hj
    rcases a3 j (by rw [hsz]; exact hj) with hl | hpr
    · exact ⟨h.size - 1, by omega, hl.1.symm, hl.2.symm⟩
    · obtain ⟨jo, hjo, hv, hc⟩ := pairIn_elim hpr
      rw [hsz] at hjo
      by_cases hjo0 : jo = 0
      · rw [hjo0, ent_setD_self (h.pop) key (by rw [hps]; omega)] at hv hc
        exact ⟨h.size - 1, by omega, hv, hc⟩
      · rw [hene jo hjo0 hjo] at hv hc
        exact ⟨jo, by omega, hv, hc⟩

theorem adjust_key_spec (key_fn : V → K) (h : Array (AdjustableHeapKey V K))
    (i : Nat) (v : V) (hinv : heapInv h) (hi : i < h.size) :
    (adjust_key oLt key_fn h i v).size = h.size ∧
    heapInv (adjust_key oLt key_fn h i v) ∧
    ∀ j, j < h.size →
      ((ent (adjust_key oLt key_fn h i v) j).val = v ∧
        (ent (adjust_key oLt key_fn h i v) j).comp_key = key_fn v) ∨
      pairIn h ((ent (adjust_key oLt key_fn h i v) j).val,
        (ent (adjust_key oLt key_fn h i v) j).comp_key) := by
  have hai : AlmostInv h i := heapInv_almost h hinv hi
  obtain ⟨a1, a2, a3⟩ := adjust_spec h ⟨v, key_fn v, i⟩ hai hi
  exact ⟨a1, a2, a3⟩

theorem remove_spec (h : Array (AdjustableHeapKey V K)) (i : Nat)
    (hinv : heapInv h) (hi : i < h.size) :
    (remove oLt h i).size = h.size - 1 ∧ heapInv (remove oLt h i) ∧
    ∀ j, j < h.size - 1 →
      pairIn h ((ent (remove oLt h i) j).val, (ent (remove oLt h i) j).comp_key) := by
  obtain ⟨H1, H2⟩ := hinv
  have hps : (h.pop).size = h.size - 1 := Array.size_pop h
  by_cases hlast : i = h.size - 1
  · have hred : remove oLt h i = h.pop := by
      simp only [remove]
      rw [if_pos hlast]
    rw [hred]
    refine ⟨hps, ⟨?_, ?_⟩, ?_⟩
    · intro j hj hj0
      rw [hps] at hj
      rw [ent_pop h hj, ent_pop h (by have := par_lt hj0; omega)]
      exact H1 j (by omega) hj0
    · intro j hj
      rw [hps] at hj
      rw [ent_pop h hj]
      exact H2 j (by omega)
    · intro j hj
      rw [ent_pop h hj]
      exact ⟨j, by omega, rfl, rfl⟩
  · have hilt : i < h.size - 1 := by omega
    set last := ent h (h.size - 1) with hlast2
    set key : AdjustableHeapKey V K := ⟨last.val, last.comp_key, i⟩ with hkey
    have hred : remove oLt h i = adjust oLt ((h.pop).setD i key) key := by
      simp only [remove]
      rw [if_neg hlast]
    have hsz : ((h.pop).setD i key).size = h.size - 1 := by rw [Array.size_setD, hps]
    have hene : ∀ j, j ≠ i → j < h.size - 1 → ent ((h.pop).setD i key) j = ent h j := by
      intro j hj hjs
      rw [ent_setD_ne (h.pop) key hj, ent_pop h hjs]
    have hai : AlmostInv ((h.pop).setD i key) i := by
      refine ⟨?_, ?_, ?_⟩
      · intro j hj hj0 hji hpji
        rw [hsz] at hj
        rw [hene j hji hj, hene (par j) hpji (by have := par_lt hj0; omega)]
        exact H1 j (by omega) hj0
      · intro j hj hji
        rw [hsz] at hj
        rw [hene j hji hj]
        exact H2 j (by omega)
      · intro r hr hpr hi0
        rw [hsz] at hr
        have hri2 : 2 * i + 1 ≤ r := by
          unfold par at hpr
          omega
        have hr0 : 0 < r := by omega
        have hparin : par i < h.size - 1 := by have := par_lt hi0; omega
        have hpine : par i ≠ i := by have := par_lt hi0; omega
        rw [hene r (by omega) hr, hene (par i) hpine hparin]
        have t1 := H1 i (by omega) hi0
        have t2 := H1 r (by omega) hr0
        rw [hpr] at t2
        exact le_trans t1 t2
    obtain ⟨a1, a2, a3⟩ := adjust_spec ((h.pop).setD i key) key hai
      (by rw [hsz]; show i < h.size - 1; omega)
    rw [hred]
    refine ⟨by rw [a1, hsz], a2, ?_⟩
    intro j hj
    rcases a3 j (by rw [hsz]; exact hj) with hl | hpr
    · exact ⟨h.size - 1, by omega, hl.1.symm, hl.2.symm⟩
    · obtain ⟨jo, hjo, hv, hc⟩ := pairIn_elim hpr
      rw [hsz] at hjo
      by_cases hjoi : jo = i
      · rw [hjoi, ent_setD_self (h.pop) key (by rw [hps]; omega)] at hv hc
        exact ⟨h.size - 1, by omega, hv, hc⟩
      · rw [hene jo hjoi hjo] at hv hc
        exact ⟨jo, by omega, hv, hc⟩

theorem pop_empty_snd : (pop oLt (#[] : Array (AdjustableHeapKey V K))).2 = #[] := rfl

theorem pop_inv_total (h : Array (AdjustableHeapKey V K)) (hinv : heapInv h) :
    heapInv (pop oLt h).2 := by
  rcases Nat.eq_zero_or_pos h.size with h0 | h0
  · rw [Array.eq_empty_of_size_eq_zero h0, pop_empty_snd]
    exact heapInv_empty
  · exact (pop_spec h hinv h0).2.1

theorem pop_wf_total (key_fn : V → K) (h : Array (AdjustableHeapKey V K))
    (hinv : heapInv h) (hwf : WellFormed key_fn h) :
    WellFormed key_fn (pop oLt h).2 := by
  rcases Nat.eq_zero_or_pos h.size with h0 | h0
  · rw [Array.eq_empty_of_size_eq_zero h0, pop_empty_snd]
    exact wellFormed_empty key_fn
  · obtain ⟨p1, p2, p3⟩ := pop_spec h hinv h0
    intro j hj
    rw [p1] at hj
    obtain ⟨jo, hjo, hv, hc⟩ := pairIn_elim (p3 j hj)
    rw [← hv, ← hc]
    exact hwf jo hjo

theorem push_wf (key_fn : V → K) (h : Array (AdjustableHeapKey V K)) (v : V)
    (hinv : heapInv h) (hwf : WellFormed key_fn h) :
    WellFormed key_fn (push oLt key_fn h v) := by
  obtain ⟨p1, p2, p3⟩ := push_spec key_fn h v hinv
  intro j hj
  rw [p1] at hj
  rcases p3 j hj with hl | hpr
  · rw [hl.2, hl.1]
  · obtain ⟨jo, hjo, hv, hc⟩ := pairIn_elim hpr
    rw [← hv, ← hc]
    exact hwf jo hjo

theorem root_min_aux (h : Array (AdjustableHeapKey V K)) (hinv : heapInv h) :
    ∀ (n i : Nat), i ≤ n → i < h.size →
      (ent h 0).comp_key ≤ (ent h i).comp_key := by
  intro n
  induction n with
  | zero =>
    intro i hin hi
    have h0 : i = 0 := by omega
    subst h0
    exact le_refl _
  | succ n ih =>
    intro i hin hi
    rcases Nat.eq_zero_or_pos i with h0 | h0
    · subst h0
      exact le_refl _
    · have hp := par_lt h0
      exact le_trans (ih (par i) (by omega) (by omega)) (hinv.1 i hi h0)

theorem root_min (h : Array (AdjustableHeapKey V K)) (hinv : heapInv h)
    (i : Nat) (hi : i < h.size) :
    (ent h 0).comp_key ≤ (ent h i).comp_key :=
  root_min_aux h hinv i i le_rfl hi

theorem pushAll_spec (key_fn : V → K) (vs : List V) :
    heapInv (pushAll (V := V) (K := K) key_fn vs) ∧
    WellFormed key_fn (pushAll (V := V) (K := K) key_fn vs) := by
  suffices hgen : ∀ (l : List V) (h0 : Array (AdjustableHeapKey V K)),
      heapInv h0 → WellFormed key_fn h0 →
      heapInv (l.foldl (push oLt key_fn) h0) ∧
      WellFormed key_fn (l.foldl (push oLt key_fn) h0) by
    exact hgen vs #[] heapInv_empty (wellFormed_empty key_fn)
  intro l
  induction l with
  | nil =>
    intro h0 hi hw
    exact ⟨hi, hw⟩
  | cons a l ih =>
    intro h0 hi hw
    exact ih _ ((push_spec key_fn h0 a hi).2.1) (push_wf key_fn h0 a hi hw)

theorem popN_spec (key_fn : V → K) :
    ∀ (n : Nat) (h : Array (AdjustableHeapKey V K)),
      heapInv h → WellFormed key_fn h →
      heapInv (popN n h) ∧ WellFormed key_fn (popN n h) := by
  intro n
  induction n with
  | zero =>
    intro h hi hw
    exact ⟨hi, hw⟩
  | succ n ih =>
    intro h hi hw
    exact ih _ (pop_inv_total h hi) (pop_wf_total key_fn h hi hw)

theorem drain_head (fuel : Nat) (h : Array (AdjustableHeapKey V K)) (b : V)
    (hb : b ∈ (drain fuel h).head?) : b = (ent h 0).val ∧ 0 < h.size := by
  cases fuel with
  | zero => simp [drain] at hb
  | succ fuel =>
    by_cases hz : h.size = 0
    · rw [show drain (fuel + 1) h = [] from by simp only [drain]; rw [if_pos hz]] at hb
      simp at hb
    · rw [show drain (fuel + 1) h = (pop oLt h).1 :: drain fuel (pop oLt h).2 from by
        simp only [drain]; rw [if_neg hz]] at hb
      simp only [List.head?_cons, Option.mem_def, Option.some.injEq] at hb
      refine ⟨?_, by omega⟩
      rw [← hb, pop_fst h]

theorem drain_sorted (key_fn : V → K) :
    ∀ (fuel : Nat) (h : Array (AdjustableHeapKey V K)),
      heapInv h → WellFormed key_fn h →
      List.Chain' (fun a b => key_fn a ≤ key_fn b) (drain fuel h) := by
  intro fuel
  induction fuel with
  | zero =>
    intro h _ _
    exact List.chain'_nil
  | succ fuel ih =>
    intro h hinv hwf
    by_cases hz : h.size = 0
    · rw [show drain (fuel + 1) h = [] from by simp only [drain]; rw [if_pos hz]]
      exact List.chain'_nil
    · rw [show drain (fuel + 1) h = (pop oLt h).1 :: drain fuel (pop oLt h).2 from by
        simp only [drain]; rw [if_neg hz]]
      rw [List.chain'_cons']
      refine ⟨?_, ih _ (pop_inv_total h hinv) (pop_wf_total key_fn h hinv hwf)⟩
      intro b hb
      obtain ⟨hb1, hb2⟩ := drain_head fuel _ b hb
      have hpos : 0 < h.size := by omega
      obtain ⟨p1, p2, p3⟩ := pop_spec h hinv hpos
      rw [p1] at hb2
      obtain ⟨jo, hjo, hv, hc⟩ := pairIn_elim (p3 0 hb2)
      rw [pop_fst h, hb1, ← hv, ← hwf jo hjo, ← hwf 0 (by omega)]
      exact root_min h hinv jo hjo

end AdjustableHeap
namespace AdjustableHeap

variable {V K : Type} [Inhabited V] [Inhabited K] [LinearOrder K]

/-- C6: starting from a heap built by pushes only, the values obtained by
popping until empty have non-decreasing keys under key_fn, and after any
number of pops the peeked value has a key that is minimal among the keys of
all currently stored values. -/
theorem heap_push_pop_order (key_fn : V → K) (vs : List V) :
    List.Chain' (fun a b => key_fn a ≤ key_fn b)
      (drain (pushAll key_fn vs).size (pushAll key_fn vs)) ∧
    ∀ n j, j < (popN n (pushAll key_fn vs)).size →
      key_fn (peek (popN n (pushAll key_fn vs))) ≤
        key_fn ((ent (popN n (pushAll key_fn vs)) j).val) := by
  obtain ⟨hinv, hwf⟩ := pushAll_spec (V := V) (K := K) key_fn vs
  constructor
  · exact drain_sorted key_fn _ _ hinv hwf
  · intro n j hj
    obtain ⟨hi, hw⟩ := popN_spec key_fn n (pushAll key_fn vs) hinv hwf
    have h0 : 0 < (popN n (pushAll key_fn vs)).size := by omega
    have hpeek : peek (popN n (pushAll key_fn vs)) =
        (ent (popN n (pushAll key_fn vs)) 0).val := rfl
    rw [hpeek, ← hw 0 h0, ← hw j hj]
    exact root_min _ hi j hj

/-- C7: each of the four heap operations applied to a heap satisfying the
invariant (parent key at most child key at every non-root position, and every
entry recording its own position in its index field) yields a heap satisfying
the invariant again. -/
theorem heap_invariant_ops (key_fn : V → K) (h : Array (AdjustableHeapKey V K))
    (v : V) (hinv : heapInv h) :
    heapInv (push oLt key_fn h v) ∧
    (0 < h.size → heapInv (pop oLt h).2) ∧
    (∀ i, i < h.size → heapInv (adjust_key oLt key_fn h i v)) ∧
    (∀ i, i < h.size → heapInv (remove oLt h i)) := by
  refine ⟨(push_spec key_fn h v hinv).2.1, fun hp => (pop_spec h hinv hp).2.1,
    fun i hi => (adjust_key_spec key_fn h i v hinv hi).2.1,
    fun i hi => (remove_spec h i hinv hi).2.1⟩

/-- Witness for C7: the four operations on the concrete three-element heap of
natural numbers 5, 1, 3 with the identity key function. -/
theorem heap_invariant_ops_witness :
    heapInv (push oLt id (pushAll (V := Nat) (K := Nat) id [5, 1, 3]) 2) ∧
    heapInv (pop oLt (pushAll (V := Nat) (K := Nat) id [5, 1, 3])).2 ∧
    heapInv (adjust_key oLt id (pushAll (V := Nat) (K := Nat) id [5, 1, 3]) 1 2) ∧
    heapInv (remove oLt (pushAll (V := Nat) (K := Nat) id [5, 1, 3]) 0) := by
  obtain ⟨w1, w2, w3, w4⟩ :=
    heap_invariant_ops id (pushAll (V := Nat) (K := Nat) id [5, 1, 3]) 2 (by decide)
  exact ⟨w1, w2 (by decide), w3 1 (by decide), w4 0 (by decide)⟩

end AdjustableHeap



namespace MTG

theorem xor_lt32 : ∀ a < 32, ∀ b < 32, a ^^^ b < 32 := by decide

theorem sub31_eq_xor : ∀ i < 32, 31 - i = 31 ^^^ i := by decide

theorem pow_lt32 : ∀ k < 5, 2 ^ k < 32 ∧ 2 ^ k ≠ 0 ∧ (31 ^^^ 2 ^ k) < 32 ∧
    (31 ^^^ 2 ^ k) &&& 2 ^ k = 0 := by decide

theorem or_xor_cancel :
    ∀ k < 5, ∀ st < 32, st &&& 2 ^ k = 0 → (st ||| 2 ^ k) ^^^ 2 ^ k = st := by decide

theorem xor_or_cancel :
    ∀ k < 5, ∀ i < 32, i &&& 2 ^ k ≠ 0 →
      ((i ^^^ 2 ^ k) ||| 2 ^ k) = i ∧ (i ^^^ 2 ^ k) &&& 2 ^ k = 0 := by decide

theorem or_and_ne_zero : ∀ k < 5, ∀ st < 32, (st ||| 2 ^ k) &&& 2 ^ k ≠ 0 := by decide

theorem pred_and_mp :
    ∀ k < 5, ∀ st < 32, ∀ t < 32,
      t &&& (31 ^^^ 2 ^ k) = t ∧ st &&& (31 ^^^ 2 ^ k) = st ∧ st ≠ 0 ∧
          t ≤ (st - 1) &&& (31 ^^^ 2 ^ k) →
        t < st := by decide

theorem pred_and_mpr :
    ∀ k < 5, ∀ st < 32, ∀ t < 32,
      t &&& (31 ^^^ 2 ^ k) = t ∧ st &&& (31 ^^^ 2 ^ k) = st ∧ st ≠ 0 ∧
          (st - 1) &&& (31 ^^^ 2 ^ k) < t →
        st ≤ t := by decide

theorem and_self_right (a m : Nat) : (a &&& m) &&& m = a &&& m := by
  rw [Nat.and_assoc, Nat.and_self]

theorem subset_le {t m : Nat} (h : t &&& m = t) : t ≤ m := by
  calc t = t &&& m := h.symm
  _ ≤ m := Nat.and_le_right

theorem xor_zero_self : ∀ i < 32, ∀ col < 32, i &&& col ≠ 0 → i ^^^ col ≤ 0 → i = col := by
  decide

theorem mobiusInner_spec (k : Nat) (hk : k < 5) :
    ∀ fuel st res, st &&& (31 ^^^ 2 ^ k) = st → st < fuel → ∀ i, i < 32 →
      mobiusInner (2 ^ k) (31 ^^^ 2 ^ k) fuel st res i =
        res i +
          (if i &&& 2 ^ k ≠ 0 ∧ (i ^^^ 2 ^ k) &&& (31 ^^^ 2 ^ k) = (i ^^^ 2 ^ k) ∧
              (i ^^^ 2 ^ k) ≤ st
            then res (i ^^^ 2 ^ k) else 0) := by
  obtain ⟨hcol, hcol0, hIt, hdisj⟩ := pow_lt32 k hk
  intro fuel
  induction fuel with
  | zero => intro st res _ hlt; exact absurd hlt (Nat.not_lt_zero st)
  | succ fuel ih =>
    intro st res hst hlt i hi
    have hst32 : st < 32 := Nat.lt_of_le_of_lt (subset_le hst) hIt
    have hstcol : st &&& 2 ^ k = 0 := by
      rw [← hst, Nat.and_assoc, hdisj, Nat.and_zero]
    by_cases h0 : st = 0
    · subst h0
      have hred : mobiusInner (2 ^ k) (31 ^^^ 2 ^ k) (fuel + 1) 0 res =
          Function.update res (2 ^ k) (res (2 ^ k) + res 0) := by
        simp [mobiusInner]
      rw [hred, Function.update_apply]
      by_cases hic : i = 2 ^ k
      · subst hic
        have hctrue : 2 ^ k &&& 2 ^ k ≠ 0 ∧
            (2 ^ k ^^^ 2 ^ k) &&& (31 ^^^ 2 ^ k) = (2 ^ k ^^^ 2 ^ k) ∧
            (2 ^ k ^^^ 2 ^ k) ≤ 0 := by
          refine ⟨by rwa [Nat.and_self], ?_, ?_⟩ <;> simp [Nat.xor_self]
        rw [if_pos rfl, if_pos hctrue, Nat.xor_self]
      · rw [if_neg hic]
        have hcfalse :
            ¬(i &&& 2 ^ k ≠ 0 ∧ (i ^^^ 2 ^ k) &&& (31 ^^^ 2 ^ k) = (i ^^^ 2 ^ k) ∧
              (i ^^^ 2 ^ k) ≤ 0) := by
          rintro ⟨h1, _, h3⟩
          exact hic (xor_zero_self i hi (2 ^ k) hcol h1 h3)
        rw [if_neg hcfalse, add_zero]
    · simp only [mobiusInner, if_neg h0]
      have hst1m : ((st - 1) &&& (31 ^^^ 2 ^ k)) &&& (31 ^^^ 2 ^ k) =
          (st - 1) &&& (31 ^^^ 2 ^ k) := and_self_right _ _
      have hst1lt : (st - 1) &&& (31 ^^^ 2 ^ k) < st :=
        Nat.lt_of_le_of_lt Nat.and_le_left (by omega)
      rw [ih ((st - 1) &&& (31 ^^^ 2 ^ k))
        (Function.update res (st ||| 2 ^ k) (res (st ||| 2 ^ k) + res st))
        hst1m (by omega) i hi]
      simp only [Function.update_apply]
      have hocne : (st ||| 2 ^ k) &&& 2 ^ k ≠ 0 := or_and_ne_zero k hk st hst32
      by_cases hic : i &&& 2 ^ k = 0
      · have hine : i ≠ st ||| 2 ^ k := fun he => hocne (he ▸ hic)
        have hcf : ¬(i &&& 2 ^ k ≠ 0 ∧ (i ^^^ 2 ^ k) &&& (31 ^^^ 2 ^ k) = (i ^^^ 2 ^ k) ∧
            (i ^^^ 2 ^ k) ≤ (st - 1) &&& (31 ^^^ 2 ^ k)) := fun hc => hc.1 hic
        have hcf2 : ¬(i &&& 2 ^ k ≠ 0 ∧ (i ^^^ 2 ^ k) &&& (31 ^^^ 2 ^ k) = (i ^^^ 2 ^ k) ∧
            (i ^^^ 2 ^ k) ≤ st) := fun hc => hc.1 hic
        rw [if_neg hine, if_neg hcf, if_neg hcf2]
      · obtain ⟨htor, htcol⟩ := xor_or_cancel k hk i hi hic
        have ht32 : i ^^^ 2 ^ k < 32 := xor_lt32 i hi (2 ^ k) hcol
        have htne : i ^^^ 2 ^ k ≠ st ||| 2 ^ k := fun he => hocne (he ▸ htcol)
        rw [if_neg htne]
        by_cases hsub : (i ^^^ 2 ^ k) &&& (31 ^^^ 2 ^ k) = (i ^^^ 2 ^ k)
        · by_cases hts : i ^^^ 2 ^ k = st
          · have hieq : i = st ||| 2 ^ k := by rw [← hts, htor]
            have hc1f : ¬(i &&& 2 ^ k ≠ 0 ∧ (i ^^^ 2 ^ k) &&& (31 ^^^ 2 ^ k) = (i ^^^ 2 ^ k) ∧
                (i ^^^ 2 ^ k) ≤ (st - 1) &&& (31 ^^^ 2 ^ k)) := by
              rintro ⟨-, -, h3⟩
              rw [hts] at h3
              omega
            have hc2t : i &&& 2 ^ k ≠ 0 ∧ (i ^^^ 2 ^ k) &&& (31 ^^^ 2 ^ k) = (i ^^^ 2 ^ k) ∧
                (i ^^^ 2 ^ k) ≤ st := ⟨hic, hsub, by rw [hts]⟩
            rw [if_pos hieq, if_neg hc1f, if_pos hc2t, hts, hieq, add_zero]
          · have hine : i ≠ st ||| 2 ^ k := by
              intro he
              apply hts
              rw [he]
              exact or_xor_cancel k hk st hst32 hstcol
            rw [if_neg hine]
            by_cases hle : (i ^^^ 2 ^ k) ≤ st
            · have hlt : i ^^^ 2 ^ k < st := by
                rcases Nat.lt_or_ge (i ^^^ 2 ^ k) st with h | h
                · exact h
                · exact absurd (Nat.le_antisymm hle h) hts
              have h4 : (i ^^^ 2 ^ k) ≤ (st - 1) &&& (31 ^^^ 2 ^ k) := by
                by_contra hcon
                have hcontra := pred_and_mpr k hk st hst32 (i ^^^ 2 ^ k) ht32
                  ⟨hsub, hst, h0, Nat.lt_of_not_le hcon⟩
                omega
              rw [if_pos ⟨hic, hsub, h4⟩, if_pos ⟨hic, hsub, hle⟩]
            · have hc1f : ¬(i &&& 2 ^ k ≠ 0 ∧
                  (i ^^^ 2 ^ k) &&& (31 ^^^ 2 ^ k) = (i ^^^ 2 ^ k) ∧
                  (i ^^^ 2 ^ k) ≤ (st - 1) &&& (31 ^^^ 2 ^ k)) := by
                rintro ⟨-, -, h3⟩
                exact hle (Nat.le_of_lt (pred_and_mp k hk st hst32 (i ^^^ 2 ^ k) ht32
                  ⟨hsub, hst, h0, h3⟩))
              have hc2f : ¬(i &&& 2 ^ k ≠ 0 ∧
                  (i ^^^ 2 ^ k) &&& (31 ^^^ 2 ^ k) = (i ^^^ 2 ^ k) ∧
                  (i ^^^ 2 ^ k) ≤ st) := by
                rintro ⟨-, -, h3⟩
                exact hle h3
              rw [if_neg hc1f, if_neg hc2f]
        · have hine : i ≠ st ||| 2 ^ k := by
            intro he
            apply hsub
            have hx : i ^^^ 2 ^ k = st := by
              rw [he]
              exact or_xor_cancel k hk st hst32 hstcol
            rw [hx, hst]
          rw [if_neg hine]
          have hc1f : ¬(i &&& 2 ^ k ≠ 0 ∧ (i ^^^ 2 ^ k) &&& (31 ^^^ 2 ^ k) = (i ^^^ 2 ^ k) ∧
              (i ^^^ 2 ^ k) ≤ (st - 1) &&& (31 ^^^ 2 ^ k)) := by
            rintro ⟨-, h2, -⟩; exact hsub h2
          have hc2f : ¬(i &&& 2 ^ k ≠ 0 ∧ (i ^^^ 2 ^ k) &&& (31 ^^^ 2 ^ k) = (i ^^^ 2 ^ k) ∧
              (i ^^^ 2 ^ k) ≤ st) := by
            rintro ⟨-, h2, -⟩; exact hsub h2
          rw [if_neg hc1f, if_neg hc2f]

theorem cond_simp :
    ∀ k < 5, ∀ j < 32, j &&& 2 ^ k ≠ 0 →
      (j ^^^ 2 ^ k) &&& (31 ^^^ 2 ^ k) = (j ^^^ 2 ^ k) ∧ (j ^^^ 2 ^ k) ≤ 31 ^^^ 2 ^ k := by
  decide

theorem maskstep_nobit_mp :
    ∀ k < 5, ∀ j < 32, ∀ t < 32,
      j &&& 2 ^ k = 0 ∧ t &&& j = t ∧ (j ^^^ t) &&& (2 ^ k - 1) = (j ^^^ t) →
        (j ^^^ t) &&& (2 ^ (k + 1) - 1) = (j ^^^ t) := by decide

theorem maskstep_nobit_mpr :
    ∀ k < 5, ∀ j < 32, ∀ t < 32,
      j &&& 2 ^ k = 0 ∧ t &&& j = t ∧ (j ^^^ t) &&& (2 ^ (k + 1) - 1) = (j ^^^ t) →
        (j ^^^ t) &&& (2 ^ k - 1) = (j ^^^ t) := by decide

theorem maskstep_high_mp :
    ∀ k < 5, ∀ j < 32, ∀ t < 32,
      j &&& 2 ^ k ≠ 0 ∧ t &&& j = t ∧ (j ^^^ t) &&& (2 ^ (k + 1) - 1) = (j ^^^ t) ∧
          t &&& 2 ^ k ≠ 0 →
        (j ^^^ t) &&& (2 ^ k - 1) = (j ^^^ t) := by decide

theorem maskstep_high_mpr_a :
    ∀ k < 5, ∀ j < 32, ∀ t < 32,
      j &&& 2 ^ k ≠ 0 ∧ t &&& j = t ∧ (j ^^^ t) &&& (2 ^ k - 1) = (j ^^^ t) →
        (j ^^^ t) &&& (2 ^ (k + 1) - 1) = (j ^^^ t) := by decide

theorem maskstep_high_mpr_b :
    ∀ k < 5, ∀ j < 32, ∀ t < 32,
      j &&& 2 ^ k ≠ 0 ∧ t &&& j = t ∧ (j ^^^ t) &&& (2 ^ k - 1) = (j ^^^ t) →
        t &&& 2 ^ k ≠ 0 := by decide

theorem maskstep_low_mp_a :
    ∀ k < 5, ∀ j < 32, ∀ t < 32,
      j &&& 2 ^ k ≠ 0 ∧ t &&& j = t ∧ (j ^^^ t) &&& (2 ^ (k + 1) - 1) = (j ^^^ t) ∧
          t &&& 2 ^ k = 0 →
        t &&& (j ^^^ 2 ^ k) = t := by decide

theorem maskstep_low_mp_b :
    ∀ k < 5, ∀ j < 32, ∀ t < 32,
      j &&& 2 ^ k ≠ 0 ∧ t &&& j = t ∧ (j ^^^ t) &&& (2 ^ (k + 1) - 1) = (j ^^^ t) ∧
          t &&& 2 ^ k = 0 →
        ((j ^^^ 2 ^ k) ^^^ t) &&& (2 ^ k - 1) = ((j ^^^ 2 ^ k) ^^^ t) := by decide

theorem maskstep_low_mpr_a :
    ∀ k < 5, ∀ j < 32, ∀ t < 32,
      j &&& 2 ^ k ≠ 0 ∧ t &&& (j ^^^ 2 ^ k) = t ∧
          ((j ^^^ 2 ^ k) ^^^ t) &&& (2 ^ k - 1) = ((j ^^^ 2 ^ k) ^^^ t) →
        t &&& j = t := by decide

theorem maskstep_low_mpr_b :
    ∀ k < 5, ∀ j < 32, ∀ t < 32,
      j &&& 2 ^ k ≠ 0 ∧ t &&& (j ^^^ 2 ^ k) = t ∧
          ((j ^^^ 2 ^ k) ^^^ t) &&& (2 ^ k - 1) = ((j ^^^ 2 ^ k) ^^^ t) →
        (j ^^^ t) &&& (2 ^ (k + 1) - 1) = (j ^^^ t) := by decide

theorem maskstep_low_mpr_c :
    ∀ k < 5, ∀ j < 32, ∀ t < 32,
      j &&& 2 ^ k ≠ 0 ∧ t &&& (j ^^^ 2 ^ k) = t ∧
          ((j ^^^ 2 ^ k) ^^^ t) &&& (2 ^ k - 1) = ((j ^^^ 2 ^ k) ^^^ t) →
        t &&& 2 ^ k = 0 := by decide

theorem subset_mask0 :
    ∀ t < 32, ∀ j < 32, t &&& j = t ∧ (j ^^^ t) &&& (2 ^ 0 - 1) = (j ^^^ t) → t = j := by
  decide

theorem partialSum_zero (freq : Nat → Int) :
    ∀ j, j < 32 → partialSum freq 0 j = freq j := by
  intro j hj
  unfold partialSum
  have hfe : (Finset.range 32).filter
      (fun t => t &&& j = t ∧ (j ^^^ t) &&& (2 ^ 0 - 1) = (j ^^^ t)) =
      (Finset.range 32).filter (fun t => t = j) := by
    apply Finset.filter_congr
    intro t ht
    have ht32 := Finset.mem_range.mp ht
    constructor
    · intro hc
      exact subset_mask0 t ht32 j hj hc
    · intro hc
      subst hc
      simp [Nat.and_self, Nat.xor_self]
  rw [hfe, Finset.filter_eq']
  simp [Finset.mem_range.mpr hj]

theorem mobiusStep_spec (freq : Nat → Int) (k : Nat) (hk : k < 5) (res : Nat → Int)
    (hres : ∀ j, j < 32 → res j = partialSum freq k j) :
    ∀ j, j < 32 → mobiusStep k res j = partialSum freq (k + 1) j := by
  intro j hj
  obtain ⟨hcol, hcol0, hIt, hdisj⟩ := pow_lt32 k hk
  unfold mobiusStep ALL_COLORS_SET
  rw [mobiusInner_spec k hk ((31 ^^^ 2 ^ k) + 1) (31 ^^^ 2 ^ k) res
    (Nat.and_self _) (Nat.lt_succ_self _) j hj]
  by_cases hjc : j &&& 2 ^ k = 0
  · rw [if_neg (fun hc => hc.1 hjc), add_zero, hres j hj]
    unfold partialSum
    apply Finset.sum_congr
    · apply Finset.filter_congr
      intro t ht
      have ht32 := Finset.mem_range.mp ht
      constructor
      · intro hc
        exact ⟨hc.1, maskstep_nobit_mp k hk j hj t ht32 ⟨hjc, hc.1, hc.2⟩⟩
      · intro hc
        exact ⟨hc.1, maskstep_nobit_mpr k hk j hj t ht32 ⟨hjc, hc.1, hc.2⟩⟩
    · intro x _
      rfl
  · have hcs := cond_simp k hk j hj hjc
    have hx32 : j ^^^ 2 ^ k < 32 := xor_lt32 j hj (2 ^ k) hcol
    rw [if_pos ⟨hjc, hcs.1, hcs.2⟩, hres j hj, hres (j ^^^ 2 ^ k) hx32]
    unfold partialSum
    rw [← Finset.sum_filter_add_sum_filter_not
      ((Finset.range 32).filter
        (fun t => t &&& j = t ∧ (j ^^^ t) &&& (2 ^ (k + 1) - 1) = (j ^^^ t)))
      (fun t => t &&& 2 ^ k ≠ 0) freq]
    rw [Finset.filter_filter, Finset.filter_filter]
    congr 1
    · apply Finset.sum_congr
      · apply Finset.filter_congr
        intro t ht
        have ht32 := Finset.mem_range.mp ht
        constructor
        · intro hc
          exact ⟨⟨hc.1, maskstep_high_mpr_a k hk j hj t ht32 ⟨hjc, hc.1, hc.2⟩⟩,
            maskstep_high_mpr_b k hk j hj t ht32 ⟨hjc, hc.1, hc.2⟩⟩
        · intro hc
          exact ⟨hc.1.1, maskstep_high_mp k hk j hj t ht32 ⟨hjc, hc.1.1, hc.1.2, hc.2⟩⟩
      · intro x _
        rfl
    · apply Finset.sum_congr
      · apply Finset.filter_congr
        intro t ht
        have ht32 := Finset.mem_range.mp ht
        constructor
        · intro hc
          exact ⟨⟨maskstep_low_mpr_a k hk j hj t ht32 ⟨hjc, hc.1, hc.2⟩,
            maskstep_low_mpr_b k hk j hj t ht32 ⟨hjc, hc.1, hc.2⟩⟩,
            fun hcon => hcon (maskstep_low_mpr_c k hk j hj t ht32 ⟨hjc, hc.1, hc.2⟩)⟩
        · intro hc
          have hnn : t &&& 2 ^ k = 0 := by
            by_cases hz : t &&& 2 ^ k = 0
            · exact hz
            · exact absurd hz hc.2
          exact ⟨maskstep_low_mp_a k hk j hj t ht32 ⟨hjc, hc.1.1, hc.1.2, hnn⟩,
            maskstep_low_mp_b k hk j hj t ht32 ⟨hjc, hc.1.1, hc.1.2, hnn⟩⟩
      · intro x _
        rfl

theorem final_mask_mp :
    ∀ j < 32, ∀ t < 32, t &&& j = t → (j ^^^ t) &&& (2 ^ 5 - 1) = (j ^^^ t) := by decide

theorem lmt_spec (freq : Nat → Int) :
    ∀ j, j < 32 → lower_mobius_transform freq j = sumSubsets freq j := by
  have h0 : ∀ j, j < 32 → freq j = partialSum freq 0 j := by
    intro j hj
    rw [partialSum_zero freq j hj]
  have h1 := mobiusStep_spec freq 0 (by omega) freq h0
  have h2 := mobiusStep_spec freq 1 (by omega) _ h1
  have h3 := mobiusStep_spec freq 2 (by omega) _ h2
  have h4 := mobiusStep_spec freq 3 (by omega) _ h3
  have h5 := mobiusStep_spec freq 4 (by omega) _ h4
  intro j hj
  have hr : List.range COLORS_LEN = [0, 1, 2, 3, 4] := by rfl
  have hu : lower_mobius_transform freq =
      mobiusStep 4 (mobiusStep 3 (mobiusStep 2 (mobiusStep 1 (mobiusStep 0 freq)))) := by
    unfold lower_mobius_transform
    rw [hr]
    simp only [List.foldl]
  rw [hu, h5 j hj]
  unfold partialSum sumSubsets
  apply Finset.sum_congr
  · apply Finset.filter_congr
    intro t ht
    have ht32 := Finset.mem_range.mp ht
    exact ⟨fun hc => hc.1, fun hc => ⟨hc, final_mask_mp j hj t ht32 hc⟩⟩
  · intro x _
    rfl

theorem ne31_xor_ne :
    ∀ i < 32, i ≠ 31 → 31 ^^^ i ≠ 0 ∧ 31 ^^^ i < 32 := by decide

theorem can_cast_simple_iff (cost lands : Nat → Int) (offset : Int) :
    can_cast_simple cost lands offset = true ↔
      ∀ i, i < 32 →
        sumSubsets cost i + offset ≤
          sumSubsets lands 31 - (if i = 31 then 0 else sumSubsets lands (31 ^^^ i)) := by
  unfold can_cast_simple ALL_COLORS_SET
  rw [List.all_eq_true]
  constructor
  · intro h i hi
    have hm := h i (List.mem_range.mpr hi)
    rw [decide_eq_true_iff] at hm
    rw [lmt_spec cost i hi] at hm
    rw [Function.update_apply, Function.update_apply] at hm
    rw [sub31_eq_xor i hi] at hm
    rw [if_neg (by decide : ¬((31 : Nat) = 0))] at hm
    rw [lmt_spec lands 31 (by omega)] at hm
    by_cases h31 : i = 31
    · subst h31
      rw [if_pos rfl]
      rw [(by decide : (31 : Nat) ^^^ 31 = 0), if_pos rfl] at hm
      exact hm
    · obtain ⟨hne, hlt⟩ := ne31_xor_ne i hi h31
      rw [if_neg h31]
      rw [if_neg hne] at hm
      rwa [lmt_spec lands (31 ^^^ i) hlt] at hm
  · intro h x hx
    have hi := List.mem_range.mp hx
    rw [decide_eq_true_iff]
    rw [lmt_spec cost x hi]
    rw [Function.update_apply, Function.update_apply, sub31_eq_xor x hi]
    rw [if_neg (by decide : ¬((31 : Nat) = 0))]
    rw [lmt_spec lands 31 (by omega)]
    have hm := h x hi
    by_cases h31 : x = 31
    · subst h31
      rw [if_pos rfl] at hm
      rw [(by decide : (31 : Nat) ^^^ 31 = 0), if_pos rfl]
      exact hm
    · obtain ⟨hne, hlt⟩ := ne31_xor_ne x hi h31
      rw [if_neg h31] at hm
      rw [if_neg hne]
      rwa [lmt_spec lands (31 ^^^ x) hlt]

end MTG


namespace MTG

theorem sumSubsets_bump (lands : Nat → Int) (s : Nat) (hs : s < 32) (n : Int) (x : Nat) :
    sumSubsets (bumpBy lands s n) x =
      sumSubsets lands x + (if s &&& x = s then n else 0) := by
  unfold sumSubsets bumpBy
  have hpt : ∀ t ∈ (Finset.range 32).filter (fun t => t &&& x = t),
      Function.update lands s (lands s + n) t =
        lands t + (if t = s then n else 0) := by
    intro t _
    rw [Function.update_apply]
    by_cases hts : t = s
    · subst hts
      rw [if_pos rfl, if_pos rfl]
    · rw [if_neg hts, if_neg hts, add_zero]
  rw [Finset.sum_congr rfl hpt, Finset.sum_add_distrib]
  congr 1
  rw [Finset.sum_ite_eq' ((Finset.range 32).filter fun t => t &&& x = t) s fun _ => n]
  by_cases hmem : s &&& x = s
  · have hin : s ∈ (Finset.range 32).filter (fun t => t &&& x = t) :=
      Finset.mem_filter.mpr ⟨Finset.mem_range.mpr hs, hmem⟩
    rw [if_pos hin, if_pos hmem]
  · have hnin : s ∉ (Finset.range 32).filter (fun t => t &&& x = t) := by
      intro hc
      exact hmem (Finset.mem_filter.mp hc).2
    rw [if_neg hnin, if_neg hmem]

theorem and31_self : ∀ s < 32, s &&& 31 = s := by decide

/-- C8: the simple-land oracle is monotone in the land pool: if the cost is
payable with the given lands and offset, it stays payable after one more
land of any color bitset s is added to the pool. -/
theorem can_cast_simple_monotone (cost lands : Nat → Int) (offset : Int) (s : Fin 32)
    (h : can_cast_simple cost lands offset = true) :
    can_cast_simple cost (bumpBy lands (s : Nat) 1) offset = true := by
  rw [can_cast_simple_iff] at h ⊢
  intro i hi
  have hm := h i hi
  have hs32 : (s : Nat) < 32 := s.isLt
  rw [sumSubsets_bump lands (s : Nat) hs32 1 31]
  rw [and31_self (s : Nat) hs32, if_pos rfl]
  by_cases h31 : i = 31
  · subst h31
    rw [if_pos rfl] at hm ⊢
    omega
  · rw [if_neg h31] at hm ⊢
    rw [sumSubsets_bump lands (s : Nat) hs32 1 (31 ^^^ i)]
    by_cases hind : (s : Nat) &&& (31 ^^^ i) = (s : Nat)
    · rw [if_pos hind]
      omega
    · rw [if_neg hind]
      omega

/-- C8 witness: a concrete application of the monotonicity theorem, adding a
land of color set 3 to a payable single-pip instance. -/
theorem can_cast_simple_monotone_witness :
    can_cast_simple (fun c => if c = 2 then 1 else 0)
      (bumpBy (fun t => if t = 2 then 1 else 0) 3 1) 0 = true :=
  can_cast_simple_monotone (fun c => if c = 2 then 1 else 0)
    (fun t => if t = 2 then 1 else 0) 0 ⟨3, by omega⟩ (by decide)

/-- C3 counterexample: for a non-Planeswalker spell with a single beacon
land, the bucketing places no land into other_lands and counts the beacon in
the simple pool at color set 0, contradicting the claim that a BEACON land
always reaches other_lands. -/
theorem beacon_bucketing_counterexample :
    (bucketLands creatureSpell [beacon]).other_lands = [] ∧
      (bucketLands creatureSpell [beacon]).simple_lands 0 = 1 := by
  constructor
  · rfl
  · decide

/-- C3 amended: a BEACON land is placed into other_lands exactly when the
spell is a Planeswalker; otherwise it is counted into the simple pool as one
producer of the empty color set and is not placed into other_lands. -/
theorem beacon_bucketing (spell : Spell) (acc : BucketState) (land : Land)
    (hb : land.land_type = .BEACON) :
    bucketStep spell acc land =
      if "Planeswalker" ∈ spell.types then
        ⟨acc.simple_lands, acc.other_lands ++ [land], acc.plaza_count, acc.gate_colors⟩
      else
        ⟨bumpBy acc.simple_lands 0 1, acc.other_lands, acc.plaza_count, acc.gate_colors⟩ := by
  unfold bucketStep
  rw [hb]
  simp [SIMPLE_LAND_TYPES]

/-- C3 amended witness: the beacon step applied to the empty accumulator and
a non-Planeswalker spell yields the simple-pool increment. -/
theorem beacon_bucketing_witness :
    bucketStep creatureSpell ⟨fun _ => 0, [], 0, 0⟩ beacon =
      ⟨bumpBy (fun _ => 0) 0 1, [], 0, 0⟩ := by
  rw [beacon_bucketing creatureSpell ⟨fun _ => 0, [], 0, 0⟩ beacon rfl]
  rw [if_neg (by decide)]

/-- C2: can_cast accepts Nicol Bolas, Dragon-God with three Interplanar
Beacons, a Mountain and two Islands. -/
theorem can_cast_bolas_beacons :
    can_cast bolas [beacon, beacon, beacon, mountain, island, island] 0 = true := by
  decide

end MTG

/-- C4: on the single-edge graph with capacity 2 and cost 1, add_flow reports
the correct maximum flow 2 but a total cost of 1, although the only maximum
flow routes 2 units across the cost-1 edge for a true minimum total cost of
2: the accumulator adds the per-unit path cost once per augmentation instead
of multiplying it by the bottleneck. -/
theorem add_flow_cost_bug : MCF.add_flow MCF.exGraph 0 1 none = (2, 1) := by
  decide


namespace MTG

theorem bumpBy_nonneg (f : Nat → Int) (key : Nat) (n : Int) (hf : ∀ s, 0 ≤ f s)
    (hn : 0 ≤ n) : ∀ s, 0 ≤ bumpBy f key n s := by
  intro s
  unfold bumpBy
  rw [Function.update_apply]
  by_cases hs : s = key
  · rw [if_pos hs]
    have := hf key
    omega
  · rw [if_neg hs]
    exact hf s

theorem bucketLands_nonneg (spell : Spell) (lands : List Land) :
    ∀ s, 0 ≤ (bucketLands spell lands).simple_lands s := by
  have hfold : ∀ (ls : List Land) (acc : BucketState), (∀ s, 0 ≤ acc.simple_lands s) →
      ∀ s, 0 ≤ (List.foldl (bucketStep spell) acc ls).simple_lands s := by
    intro ls
    induction ls with
    | nil => intro acc hacc; simpa using hacc
    | cons l ls ih =>
      intro acc hacc
      rw [List.foldl_cons]
      apply ih
      unfold bucketStep
      split_ifs <;>
        first
          | exact hacc
          | exact fun s => bumpBy_nonneg _ _ _ hacc (by omega) s
  simp only [bucketLands]
  split_ifs
  · exact fun s => bumpBy_nonneg _ _ _ (hfold lands ⟨fun _ => 0, [], 0, 0⟩ fun t => le_refl 0)
      (Int.natCast_nonneg _) s
  · exact hfold lands ⟨fun _ => 0, [], 0, 0⟩ fun t => le_refl 0

theorem sumSubsets_nonneg (lands : Nat → Int) (hl : ∀ t, 0 ≤ lands t) (x : Nat) :
    0 ≤ sumSubsets lands x :=
  Finset.sum_nonneg fun t _ => hl t

theorem sumSubsets_le_total (lands : Nat → Int) (hl : ∀ t, 0 ≤ lands t) (x : Nat) :
    sumSubsets lands x ≤ sumSubsets lands 31 := by
  apply Finset.sum_le_sum_of_subset_of_nonneg
  · intro t ht
    have hm := Finset.mem_filter.mp ht
    have ht32 := Finset.mem_range.mp hm.1
    exact Finset.mem_filter.mpr ⟨hm.1, and31_self t ht32⟩
  · intro t _ _
    exact hl t

theorem can_cast_simple_zero (cost lands : Nat → Int) (hc : ∀ c, cost c = 0)
    (hl : ∀ t, 0 ≤ lands t) : can_cast_simple cost lands 0 = true := by
  rw [can_cast_simple_iff]
  intro i hi
  have hcz : sumSubsets cost i = 0 := Finset.sum_eq_zero fun t _ => hc t
  rw [hcz]
  have h1 := sumSubsets_nonneg lands hl (31 ^^^ i)
  have h2 := sumSubsets_nonneg lands hl 31
  have h3 := sumSubsets_le_total lands hl (31 ^^^ i)
  by_cases h31 : i = 31
  · rw [if_pos h31]
    omega
  · rw [if_neg h31]
    omega

/-- C10: a spell whose cost table is identically zero is castable with any
land list and any X: the X expansion leaves the cost empty and the simple
fast path accepts, because every transformed land count is bounded by the
total land count. -/
theorem can_cast_empty_cost (spell : Spell) (lands : List Land) (X : Nat)
    (h : ∀ c, spell.cost c = 0) : can_cast spell lands X = true := by
  have hz : can_cast_simple spell.cost (bucketLands spell lands).simple_lands 0 = true :=
    can_cast_simple_zero _ _ h (bucketLands_nonneg spell lands)
  simp only [can_cast]
  rw [if_neg (show ¬spell.cost 0 ≠ 0 from fun hcn => hcn (h 0))]
  rw [hz]
  rfl

/-- C10 witness: the zero-cost spell is castable with a single Mountain and
X equal to 7. -/
theorem can_cast_empty_cost_witness : can_cast freeSpell [mountain] 7 = true :=
  can_cast_empty_cost freeSpell [mountain] 7 fun _ => rfl

end MTG


namespace MTG

theorem or_lt32 : ∀ a < 32, ∀ b < 32, a ||| b < 32 := by decide

theorem or_absorb : ∀ a < 32, ∀ b < 32, (a &&& b) ||| a = a := by decide

theorem and_or_subset (a b c : Nat) (ha : a < 32) (hb : b < 32) (_hc : c < 32)
    (h : a &&& c = a) : a &&& (b ||| c) = a := by
  rw [Nat.and_or_distrib_left, h, or_absorb a ha b hb]

theorem and_mono_ne (a b i : Nat) (hb : b &&& i = b) (h : a &&& b ≠ 0) : a &&& i ≠ 0 := by
  intro hc
  apply h
  have h1 : a &&& b = (a &&& i) &&& b := by
    rw [Nat.and_assoc, Nat.and_comm i b, hb]
  rw [h1, hc, Nat.zero_and]

theorem meets_compl_mp : ∀ q < 32, ∀ s < 32, q &&& s = 0 → q &&& (31 ^^^ s) = q := by decide

theorem meets_compl_mpr : ∀ q < 32, ∀ s < 32, q &&& (31 ^^^ s) = q → q &&& s = 0 := by decide

theorem sub31_imp : ∀ i < 32, 31 &&& i = 31 → i = 31 := by decide

theorem card_filter_sigma (f : Nat → Nat) (P : Nat → Prop) [DecidablePred P] :
    ((Finset.univ : Finset (Σ c : Fin 32, Fin (f c))).filter fun p => P (p.1 : Nat)).card =
      ((Finset.range 32).filter P).sum f := by
  have hset : ((Finset.univ : Finset (Σ c : Fin 32, Fin (f c))).filter fun p => P (p.1 : Nat)) =
      (Finset.univ.filter fun c : Fin 32 => P (c : Nat)).sigma fun _ => Finset.univ := by
    ext p
    simp [Finset.mem_sigma]
  rw [hset, Finset.card_sigma]
  simp only [Finset.card_univ, Fintype.card_fin]
  rw [Finset.sum_filter]
  rw [Fin.sum_univ_eq_sum_range (fun i => if P i then f i else 0) 32]
  rw [← Finset.sum_filter]

theorem card_sigma_univ (f : Nat → Nat) :
    Fintype.card (Σ c : Fin 32, Fin (f c)) = (Finset.range 32).sum f := by
  rw [Fintype.card_sigma]
  simp only [Fintype.card_fin]
  exact Fin.sum_univ_eq_sum_range (fun i => f i) 32

theorem sumSubsets_toCounter (f : Nat → Nat) (s : Nat) :
    sumSubsets (toCounter f) s = ((((Finset.range 32).filter fun t => t &&& s = t).sum f : Nat) : Int) := by
  unfold sumSubsets toCounter
  rw [Nat.cast_sum]

theorem card_pipsUnder (cost : Nat → Nat) (s : Nat) :
    (pipsUnder cost s).card = ((Finset.range 32).filter fun t => t &&& s = t).sum cost :=
  card_filter_sigma cost fun t => t &&& s = t

theorem card_landsUnder (lands : Nat → Nat) (s : Nat) :
    (landsUnder lands s).card = ((Finset.range 32).filter fun t => t &&& s = t).sum lands :=
  card_filter_sigma lands fun t => t &&& s = t

theorem card_landsMeeting_add (lands : Nat → Nat) (s : Nat) (hs : s < 32) :
    (landsMeeting lands s).card + (landsUnder lands (31 ^^^ s)).card =
      Fintype.card (LandIdx lands) := by
  have hme : landsMeeting lands s =
      Finset.univ.filter fun q : LandIdx lands =>
        ¬((q.1 : Nat) &&& (31 ^^^ s) = (q.1 : Nat)) := by
    apply Finset.filter_congr
    intro q _
    have hq32 : (q.1 : Nat) < 32 := q.1.isLt
    constructor
    · intro hmeet hunder
      exact hmeet (meets_compl_mpr (q.1 : Nat) hq32 s hs hunder)
    · intro hnot hz
      exact hnot (meets_compl_mp (q.1 : Nat) hq32 s hs hz)
  rw [hme, Nat.add_comm, ← Finset.card_univ]
  exact Finset.filter_card_add_filter_neg_card_eq_card
    fun q : LandIdx lands => (q.1 : Nat) &&& (31 ^^^ s) = (q.1 : Nat)

end MTG


namespace MTG

theorem colorsUnion_lt32 (cost : Nat → Nat) (A : Finset (PipIdx cost)) :
    colorsUnion cost A < 32 := by
  unfold colorsUnion
  induction A using Finset.induction_on with
  | empty => simp
  | @insert a s h ih =>
    rw [Finset.fold_insert h]
    exact or_lt32 (a.1 : Nat) a.1.isLt _ ih

theorem subset_colorsUnion (cost : Nat → Nat) (A : Finset (PipIdx cost)) :
    ∀ p ∈ A, (p.1 : Nat) &&& colorsUnion cost A = (p.1 : Nat) := by
  induction A using Finset.induction_on with
  | empty => intro p hp; exact absurd hp (Finset.not_mem_empty p)
  | @insert a s h ih =>
    intro p hp
    have hfold : colorsUnion cost (insert a s) = (a.1 : Nat) ||| colorsUnion cost s :=
      Finset.fold_insert h
    rw [hfold]
    have hs32 : colorsUnion cost s < 32 := colorsUnion_lt32 cost s
    rcases Finset.mem_insert.mp hp with he | hm
    · subst he
      rw [Nat.and_or_distrib_left, Nat.and_self]
      have hb : (p.1 : Nat) &&& colorsUnion cost s ≤ (p.1 : Nat) := Nat.and_le_left
      have h32 := p.1.isLt
      rw [Nat.lor_comm]
      exact or_absorb (p.1 : Nat) h32 (colorsUnion cost s) hs32
    · exact and_or_subset (p.1 : Nat) (a.1 : Nat) (colorsUnion cost s)
        p.1.isLt a.1.isLt hs32 (ih p hm)

theorem meets_colorsUnion (cost : Nat → Nat) (A : Finset (PipIdx cost)) (t : Nat) :
    t &&& colorsUnion cost A ≠ 0 → ∃ p ∈ A, t &&& (p.1 : Nat) ≠ 0 := by
  induction A using Finset.induction_on with
  | empty =>
    intro hne
    exact absurd (by simp [colorsUnion]) hne
  | @insert a s h ih =>
    intro hne
    have hfold : colorsUnion cost (insert a s) = (a.1 : Nat) ||| colorsUnion cost s :=
      Finset.fold_insert h
    rw [hfold] at hne
    by_cases hta : t &&& (a.1 : Nat) = 0
    · have h2 : t &&& colorsUnion cost s ≠ 0 := by
        intro hz
        apply hne
        rw [Nat.and_or_distrib_left, hta, hz]
        rfl
      obtain ⟨p, hp, hne2⟩ := ih h2
      exact ⟨p, Finset.mem_insert_of_mem hp, hne2⟩
    · exact ⟨a, Finset.mem_insert_self a s, hta⟩

theorem matching_imp_conds (cost lands : Nat → Nat) (hm : matchingExists cost lands) :
    ∀ i, i < 32 →
      (pipsUnder cost i).card +
          (if i = 31 then 0 else (landsUnder lands (31 ^^^ i)).card) ≤
        Fintype.card (LandIdx lands) := by
  obtain ⟨f, hinj, hpay⟩ := hm
  intro i hi
  have himgcard : ((pipsUnder cost i).image f).card = (pipsUnder cost i).card :=
    Finset.card_image_of_injective _ hinj
  by_cases h31 : i = 31
  · rw [if_pos h31, Nat.add_zero]
    calc (pipsUnder cost i).card = ((pipsUnder cost i).image f).card := himgcard.symm
    _ ≤ Fintype.card (LandIdx lands) := Finset.card_le_univ _
  · rw [if_neg h31]
    have himg : (pipsUnder cost i).image f ⊆ landsMeeting lands i := by
      intro q hq
      obtain ⟨p, hp, hfp⟩ := Finset.mem_image.mp hq
      have hpsub : (p.1 : Nat) &&& i = (p.1 : Nat) := (Finset.mem_filter.mp hp).2
      subst hfp
      refine Finset.mem_filter.mpr ⟨Finset.mem_univ _, ?_⟩
      rcases hpay p with hInt | ⟨hz, hgen⟩
      · exact and_mono_ne _ _ _ hpsub hInt
      · exfalso
        apply h31
        rw [hgen] at hpsub
        exact sub31_imp i hi hpsub
    have hcard : (pipsUnder cost i).card ≤ (landsMeeting lands i).card := by
      rw [← himgcard]
      exact Finset.card_le_card himg
    have hadd := card_landsMeeting_add lands i hi
    omega

theorem landsUnder31_card (lands : Nat → Nat) :
    (landsUnder lands 31).card = Fintype.card (LandIdx lands) := by
  unfold landsUnder
  rw [Finset.filter_true_of_mem fun q _ => and31_self (q.1 : Nat) q.1.isLt]
  exact Finset.card_univ

theorem conds_imp_hall (cost lands : Nat → Nat)
    (hb : (((Finset.range 32).filter fun c => c ≠ 31).sum cost) ≤
      (((Finset.range 32).filter fun t => t ≠ 0).sum lands))
    (hcond : ∀ i, i < 32 →
      (pipsUnder cost i).card +
          (if i = 31 then 0 else (landsUnder lands (31 ^^^ i)).card) ≤
        Fintype.card (LandIdx lands)) :
    ∀ A : Finset (PipIdx cost), A.card ≤ (A.biUnion (Tmap cost lands)).card := by
  intro A
  by_cases hgen : ∃ pg ∈ A, (pg.1 : Nat) = 31
  · obtain ⟨pg, hpg, hg31⟩ := hgen
    have hTu : Tmap cost lands pg = Finset.univ := by
      unfold Tmap
      apply Finset.filter_true_of_mem
      intro q _
      rw [hg31]
      by_cases hq0 : (q.1 : Nat) = 0
      · exact Or.inr ⟨hq0, rfl⟩
      · exact Or.inl (by rw [and31_self (q.1 : Nat) q.1.isLt]; exact hq0)
    have h1 : Finset.univ ⊆ A.biUnion (Tmap cost lands) := by
      rw [← hTu]
      exact Finset.subset_biUnion_of_mem (Tmap cost lands) hpg
    have h2 : Fintype.card (LandIdx lands) ≤ (A.biUnion (Tmap cost lands)).card := by
      rw [← Finset.card_univ]
      exact Finset.card_le_card h1
    have hc31 := hcond 31 (by omega)
    rw [if_pos rfl, Nat.add_zero] at hc31
    have hAle : A.card ≤ (pipsUnder cost 31).card := by
      apply Finset.card_le_card
      intro p _
      exact Finset.mem_filter.mpr ⟨Finset.mem_univ _, and31_self (p.1 : Nat) p.1.isLt⟩
    omega
  · push_neg at hgen
    have hS32 : colorsUnion cost A < 32 := colorsUnion_lt32 cost A
    have hAsub : A ⊆ pipsUnder cost (colorsUnion cost A) := fun p hp =>
      Finset.mem_filter.mpr ⟨Finset.mem_univ _, subset_colorsUnion cost A p hp⟩
    have hmeet : landsMeeting lands (colorsUnion cost A) ⊆ A.biUnion (Tmap cost lands) := by
      intro q hq
      have hqm := (Finset.mem_filter.mp hq).2
      obtain ⟨p, hp, hpq⟩ := meets_colorsUnion cost A (q.1 : Nat) hqm
      apply Finset.mem_biUnion.mpr
      exact ⟨p, hp, Finset.mem_filter.mpr ⟨Finset.mem_univ _, Or.inl hpq⟩⟩
    have h4 := Finset.card_le_card hmeet
    by_cases hS31 : colorsUnion cost A = 31
    · have hAsub2 : A ⊆ pipsNonGeneric cost := fun p hp =>
        Finset.mem_filter.mpr ⟨Finset.mem_univ _, hgen p hp⟩
      have h1 := Finset.card_le_card hAsub2
      have h2 : (pipsNonGeneric cost).card =
          ((Finset.range 32).filter fun c => c ≠ 31).sum cost :=
        card_filter_sigma cost fun c => c ≠ 31
      have h3 : (landsMeeting lands (colorsUnion cost A)).card =
          ((Finset.range 32).filter fun t => t ≠ 0).sum lands := by
        rw [hS31]
        have hfe : landsMeeting lands 31 =
            Finset.univ.filter fun q : LandIdx lands => (q.1 : Nat) ≠ 0 := by
          apply Finset.filter_congr
          intro q _
          rw [and31_self (q.1 : Nat) q.1.isLt]
        rw [hfe]
        exact card_filter_sigma lands fun t => t ≠ 0
      omega
    · have hc := hcond (colorsUnion cost A) hS32
      rw [if_neg hS31] at hc
      have h1 := Finset.card_le_card hAsub
      have hadd := card_landsMeeting_add lands (colorsUnion cost A) hS32
      omega

end MTG


namespace MTG

theorem natCond_iff (cost lands : Nat → Nat) (i : Nat) (_hi : i < 32) :
    (sumSubsets (toCounter cost) i + 0 ≤
        sumSubsets (toCounter lands) 31 -
          (if i = 31 then 0 else sumSubsets (toCounter lands) (31 ^^^ i))) ↔
      ((pipsUnder cost i).card +
          (if i = 31 then 0 else (landsUnder lands (31 ^^^ i)).card) ≤
        Fintype.card (LandIdx lands)) := by
  rw [sumSubsets_toCounter cost i, sumSubsets_toCounter lands 31,
    sumSubsets_toCounter lands (31 ^^^ i)]
  rw [← card_pipsUnder cost i, ← card_landsUnder lands 31, ← card_landsUnder lands (31 ^^^ i)]
  rw [landsUnder31_card lands]
  have hle : (landsUnder lands (31 ^^^ i)).card ≤ Fintype.card (LandIdx lands) :=
    Finset.card_le_univ _
  by_cases h31 : i = 31
  · rw [if_pos h31, if_pos h31]
    omega
  · rw [if_neg h31, if_neg h31]
    omega

/-- C1 counterexample: the oracle claims yes on the cost with one pip of
color set 23 and one pip of color set 27 against one colorless land and one
land of color set 3, yet no complete assignment of the two pips to distinct
payable lands exists, because the colorless land pays only generic pips. -/
theorem oracle_matching_counterexample :
    can_cast_simple (toCounter cexCost) (toCounter cexLands) 0 = true ∧
      ¬matchingExists cexCost cexLands := by
  constructor
  · decide
  · rintro ⟨f, hinj, hpay⟩
    have hland : ∀ q : LandIdx cexLands, (q.1 : Nat) = 0 ∨ (q.1 : Nat) = 3 := by
      intro q
      have hlt := q.2.isLt
      by_contra hcon
      push_neg at hcon
      have hz : cexLands (q.1 : Nat) = 0 := by
        unfold cexLands
        rw [if_neg hcon.1, if_neg hcon.2]
      omega
    have hval : ∀ p : PipIdx cexCost,
        ((p.1 : Nat) = 23 ∨ (p.1 : Nat) = 27) → ((f p).1 : Nat) = 3 := by
      intro p hp23
      rcases hland (f p) with h0 | h3
      · exfalso
        rcases hpay p with hInt | ⟨_, hgen⟩
        · rw [h0, Nat.zero_and] at hInt
          exact hInt rfl
        · rcases hp23 with h | h <;> rw [h] at hgen <;> omega
      · exact h3
    have huniq : ∀ q : LandIdx cexLands, (q.1 : Nat) = 3 → q = cexLand3 := by
      rintro ⟨⟨tv, htv⟩, jv⟩ hq3
      have htv3 : tv = 3 := hq3
      subst htv3
      have hc3 : cexLands ((⟨3, htv⟩ : Fin 32) : Nat) = 1 := rfl
      have hj : jv = ⟨0, by omega⟩ := by
        apply Fin.ext
        have hb := jv.isLt
        omega
      rw [hj]
      rfl
    have hv1 := huniq (f cexPip1) (hval cexPip1 (Or.inl rfl))
    have hv2 := huniq (f cexPip2) (hval cexPip2 (Or.inr rfl))
    have hcontra := hinj (hv1.trans hv2.symm)
    exact absurd (congrArg (fun p : PipIdx cexCost => (p.1 : Nat)) hcontra) (by decide)

/-- C1 amended: over any cost and land multisets with at most 8 lands in
total, and additionally at most as many non-generic pips as non-colorless
lands, the oracle answers yes exactly when the brute-force bipartite matcher
finds a complete assignment of pips to lands. -/
theorem can_cast_simple_iff_matching (cost lands : Nat → Nat)
    (hsize : (Finset.range 32).sum lands ≤ 8)
    (hb : (((Finset.range 32).filter fun c => c ≠ 31).sum cost) ≤
      (((Finset.range 32).filter fun t => t ≠ 0).sum lands)) :
    (can_cast_simple (toCounter cost) (toCounter lands) 0 = true ↔
      matchingExists cost lands) := by
  have hLle := hsize
  rw [can_cast_simple_iff]
  constructor
  · intro h
    have hnat : ∀ i, i < 32 →
        (pipsUnder cost i).card +
            (if i = 31 then 0 else (landsUnder lands (31 ^^^ i)).card) ≤
          Fintype.card (LandIdx lands) := by
      intro i hi
      exact (natCond_iff cost lands i hi).mp (h i hi)
    obtain ⟨f, hinj, hmem⟩ :=
      (Finset.all_card_le_biUnion_card_iff_exists_injective (Tmap cost lands)).mp
        (conds_imp_hall cost lands hb hnat)
    exact ⟨f, hinj, fun p => (Finset.mem_filter.mp (hmem p)).2⟩
  · intro hm
    intro i hi
    exact (natCond_iff cost lands i hi).mpr (matching_imp_conds cost lands hm i hi)

/-- C1 amended witness: for one U pip against one U land the hypotheses hold
and the oracle answer yes transfers to an explicit matching. -/
theorem can_cast_simple_iff_matching_witness :
    matchingExists (fun c => if c = 2 then 1 else 0) (fun t => if t = 2 then 1 else 0) :=
  (can_cast_simple_iff_matching (fun c => if c = 2 then 1 else 0)
    (fun t => if t = 2 then 1 else 0) (by decide) (by decide)).mp (by decide)

end MTG

namespace AdjustableHeap

variable {V K : Type} [Inhabited V] [Inhabited K] [LinearOrder K]

theorem setD_oob (h : Array (AdjustableHeapKey V K)) {i : Nat}
    (x : AdjustableHeapKey V K) (hi : ¬ i < h.size) : h.setD i x = h := by
  unfold Array.setD
  rw [dif_neg hi]

theorem bubbleUpGo_vals (lt : K → K → Bool) (key : AdjustableHeapKey V K) :
    ∀ (fuel : Nat) (h : Array (AdjustableHeapKey V K)) (k : Nat),
      (bubbleUpGo lt key fuel h k).1.size = h.size ∧
      ∀ j, j < h.size → ∃ jo, jo < h.size ∧
        (ent (bubbleUpGo lt key fuel h k).1 j).val = (ent h jo).val := by
  intro fuel
  induction fuel with
  | zero =>
    intro h k
    exact ⟨rfl, fun j hj => ⟨j, hj, rfl⟩⟩
  | succ fuel ih =>
    intro h k
    by_cases hk0 : k = 0
    · subst hk0
      have hred : bubbleUpGo lt key (fuel + 1) h 0 = (h, 0) := by
        simp [bubbleUpGo]
      rw [hred]
      exact ⟨rfl, fun j hj => ⟨j, hj, rfl⟩⟩
    · by_cases hlt : lt key.comp_key (ent h (par k)).comp_key = true
      · have hred : bubbleUpGo lt key (fuel + 1) h k =
            bubbleUpGo lt key fuel
              (h.setD k ⟨(ent h (par k)).val, (ent h (par k)).comp_key, k⟩) (par k) := by
          simp only [bubbleUpGo]
          rw [if_neg hk0, if_pos hlt]
        rw [hred]
        have hkpos : 0 < k := Nat.pos_of_ne_zero hk0
        set h2 := h.setD k ⟨(ent h (par k)).val, (ent h (par k)).comp_key, k⟩ with hh2
        have hsz : h2.size = h.size := Array.size_setD _ _ _
        have hsub : ∀ j, j < h.size → ∃ jo, jo < h.size ∧
            (ent h2 j).val = (ent h jo).val := by
          intro j hj
          by_cases hklt : k < h.size
          · by_cases hjk : j = k
            · rw [hjk, hh2, ent_setD_self h _ hklt]
              exact ⟨par k, lt_trans (par_lt hkpos) hklt, rfl⟩
            · rw [hh2, ent_setD_ne h _ hjk]
              exact ⟨j, hj, rfl⟩
          · rw [hh2, setD_oob h _ hklt]
            exact ⟨j, hj, rfl⟩
        obtain ⟨s1, s2⟩ := ih h2 (par k)
        refine ⟨by rw [s1, hsz], ?_⟩
        intro j hj
        obtain ⟨j1, hj1, hv1⟩ := s2 j (by rw [hsz]; exact hj)
        obtain ⟨j2, hj2, hv2⟩ := hsub j1 (by rw [← hsz]; exact hj1)
        exact ⟨j2, hj2, hv1.trans hv2⟩
      · have hred : bubbleUpGo lt key (fuel + 1) h k = (h, k) := by
          simp only [bubbleUpGo]
          rw [if_neg hk0, if_neg hlt]
        rw [hred]
        exact ⟨rfl, fun j hj => ⟨j, hj, rfl⟩⟩

theorem bubbleDownGo_vals (lt : K → K → Bool) (key : AdjustableHeapKey V K) :
    ∀ (fuel : Nat) (h : Array (AdjustableHeapKey V K)) (k : Nat),
      (bubbleDownGo lt key fuel h k).1.size = h.size ∧
      ∀ j, j < h.size → ∃ jo, jo < h.size ∧
        (ent (bubbleDownGo lt key fuel h k).1 j).val = (ent h jo).val := by
  intro fuel
  induction fuel with
  | zero =>
    intro h k
    exact ⟨rfl, fun j hj => ⟨j, hj, rfl⟩⟩
  | succ fuel ih =>
    intro h k
    by_cases hch : 2 * k + 1 < h.size
    · have hklt : k < h.size := by omega
      have hgen : ∀ mi : Nat, mi < h.size →
          (bubbleDownGo lt key fuel
            (h.setD k ⟨(ent h mi).val, (ent h mi).comp_key, k⟩) mi).1.size = h.size ∧
          ∀ j, j < h.size → ∃ jo, jo < h.size ∧
            (ent (bubbleDownGo lt key fuel
              (h.setD k ⟨(ent h mi).val, (ent h mi).comp_key, k⟩) mi).1 j).val =
              (ent h jo).val := by
        intro mi hmi
        set h2 := h.setD k ⟨(ent h mi).val, (ent h mi).comp_key, k⟩ with hh2
        have hsz : h2.size = h.size := Array.size_setD _ _ _
        have hsub : ∀ j, j < h.size → ∃ jo, jo < h.size ∧
            (ent h2 j).val = (ent h jo).val := by
          intro j hj
          by_cases hjk : j = k
          · rw [hjk, hh2, ent_setD_self h _ hklt]
            exact ⟨mi, hmi, rfl⟩
          · rw [hh2, ent_setD_ne h _ hjk]
            exact ⟨j, hj, rfl⟩
        obtain ⟨s1, s2⟩ := ih h2 mi
        refine ⟨by rw [s1, hsz], ?_⟩
        intro j hj
        obtain ⟨j1, hj1, hv1⟩ := s2 j (by rw [hsz]; exact hj)
        obtain ⟨j2, hj2, hv2⟩ := hsub j1 (by rw [← hsz]; exact hj1)
        exact ⟨j2, hj2, hv1.trans hv2⟩
      by_cases hcond : (decide (2 * k + 2 < h.size) &&
          lt (ent h (2 * k + 2)).comp_key (ent h (2 * k + 1)).comp_key) = true
      · have hri : 2 * k + 2 < h.size :=
          of_decide_eq_true (Bool.and_eq_true_iff.mp hcond).1
        by_cases hkey : lt key.comp_key (ent h (2 * k + 2)).comp_key = true
        · have hred : bubbleDownGo lt key (fuel + 1) h k = (h, k) := by
            simp only [bubbleDownGo]
            rw [if_pos hch, if_pos hcond, if_pos hkey]
          rw [hred]
          exact ⟨rfl, fun j hj => ⟨j, hj, rfl⟩⟩
        · have hred : bubbleDownGo lt key (fuel + 1) h k =
              bubbleDownGo lt key fuel
                (h.setD k ⟨(ent h (2 * k + 2)).val, (ent h (2 * k + 2)).comp_key, k⟩)
                (2 * k + 2) := by
            simp only [bubbleDownGo]
            rw [if_pos hch, if_pos hcond, if_neg hkey]
          rw [hred]
          exact hgen (2 * k + 2) hri
      · by_cases hkey : lt key.comp_key (ent h (2 * k + 1)).comp_key = true
        · have hred : bubbleDownGo lt key (fuel + 1) h k = (h, k) := by
            simp only [bubbleDownGo]
            rw [if_pos hch, if_neg hcond, if_pos hkey]
          rw [hred]
          exact ⟨rfl, fun j hj => ⟨j, hj, rfl⟩⟩
        · have hred : bubbleDownGo lt key (fuel + 1) h k =
              bubbleDownGo lt key fuel
                (h.setD k ⟨(ent h (2 * k + 1)).val, (ent h (2 * k + 1)).comp_key, k⟩)
                (2 * k + 1) := by
            simp only [bubbleDownGo]
            rw [if_pos hch, if_neg hcond, if_neg hkey]
          rw [hred]
          exact hgen (2 * k + 1) hch
    · have hred : bubbleDownGo lt key (fuel + 1) h k = (h, k) := by
        simp only [bubbleDownGo]
        rw [if_neg hch]
      rw [hred]
      exact ⟨rfl, fun j hj => ⟨j, hj, rfl⟩⟩

theorem adjust_vals (lt : K → K → Bool) (h : Array (AdjustableHeapKey V K))
    (key : AdjustableHeapKey V K) :
    (adjust lt h key).size = h.size ∧
    ∀ j, j < h.size → (ent (adjust lt h key) j).val = key.val ∨
      ∃ jo, jo < h.size ∧ (ent (adjust lt h key) j).val = (ent h jo).val := by
  obtain ⟨u1, u2⟩ := bubbleUpGo_vals lt key key.index h key.index
  set r1 := bubbleUpGo lt key key.index h key.index with hr1
  obtain ⟨d1, d2⟩ := bubbleDownGo_vals lt key r1.1.size r1.1 r1.2
  set r2 := bubbleDownGo lt key r1.1.size r1.1 r1.2 with hr2
  have hadj : adjust lt h key = r2.1.setD r2.2 ⟨key.val, key.comp_key, r2.2⟩ := rfl
  have hrest : ∀ j, j < h.size → ∃ jo, jo < h.size ∧
      (ent r2.1 j).val = (ent h jo).val := by
    intro j hj
    obtain ⟨j1, hj1, hv1⟩ := d2 j (by rw [u1]; exact hj)
    obtain ⟨j2, hj2, hv2⟩ := u2 j1 (by rw [← u1]; exact hj1)
    exact ⟨j2, hj2, hv1.trans hv2⟩
  rw [hadj]
  refine ⟨by rw [Array.size_setD, d1, u1], ?_⟩
  intro j hj
  by_cases hlt2 : r2.2 < r2.1.size
  · by_cases hjr : j = r2.2
    · rw [hjr, ent_setD_self r2.1 _ hlt2]
      exact Or.inl rfl
    · rw [ent_setD_ne r2.1 _ hjr]
      exact Or.inr (hrest j hj)
  · rw [setD_oob r2.1 _ hlt2]
    exact Or.inr (hrest j hj)

theorem push_vals (lt : K → K → Bool) (key_fn : V → K)
    (h : Array (AdjustableHeapKey V K)) (v : V) :
    (push lt key_fn h v).size = h.size + 1 ∧
    ∀ j, j < h.size + 1 → (ent (push lt key_fn h v) j).val = v ∨
      ∃ jo, jo < h.size ∧ (ent (push lt key_fn h v) j).val = (ent h jo).val := by
  have hps : (h.push ⟨v, key_fn v, h.size⟩).size = h.size + 1 := Array.size_push _ _
  obtain ⟨a1, a2⟩ := adjust_vals lt (h.push ⟨v, key_fn v, h.size⟩) ⟨v, key_fn v, h.size⟩
  have hpush : push lt key_fn h v =
      adjust lt (h.push ⟨v, key_fn v, h.size⟩) ⟨v, key_fn v, h.size⟩ := rfl
  rw [hpush]
  refine ⟨by rw [a1, hps], ?_⟩
  intro j hj
  rcases a2 j (by rw [hps]; omega) with hl | ⟨jo, hjo, hv⟩
  · exact Or.inl hl
  · rw [hps] at hjo
    by_cases hjs : jo = h.size
    · rw [hjs, ent_push_self h _] at hv
      exact Or.inl hv
    · rw [ent_push_lt h _ (by omega)] at hv
      exact Or.inr ⟨jo, by omega, hv⟩

theorem pop_fst_any (lt : K → K → Bool) (h : Array (AdjustableHeapKey V K)) :
    (pop lt h).1 = (ent h 0).val := by
  simp only [pop]
  split <;> rfl

theorem pop_vals (lt : K → K → Bool) (h : Array (AdjustableHeapKey V K)) :
    ∀ j, j < (pop lt h).2.size → ∃ jo, jo < h.size ∧
      (ent (pop lt h).2 j).val = (ent h jo).val := by
  by_cases h1 : h.size = 1
  · have hred : (pop lt h).2 = #[] := by
      simp only [pop]
      rw [if_pos h1]
    rw [hred]
    intro j hj
    exact absurd hj (Nat.not_lt_zero j)
  · rcases Nat.eq_zero_or_pos h.size with h0 | h0
    · have he : h = #[] := Array.eq_empty_of_size_eq_zero h0
      subst he
      have hred : (pop lt (#[] : Array (AdjustableHeapKey V K))).2 = #[] := rfl
      rw [hred]
      intro j hj
      exact absurd hj (Nat.not_lt_zero j)
    · set last := ent h (h.size - 1) with hlast
      set key : AdjustableHeapKey V K := ⟨last.val, last.comp_key, 0⟩ with hkey
      have hred : (pop lt h).2 = adjust lt ((h.pop).setD 0 key) key := by
        simp only [pop]
        rw [if_neg h1]
      have hps : (h.pop).size = h.size - 1 := Array.size_pop h
      have hsz : ((h.pop).setD 0 key).size = h.size - 1 := by rw [Array.size_setD, hps]
      have hge : 2 ≤ h.size := by omega
      have hsub : ∀ j, j < h.size - 1 → ∃ jo, jo < h.size ∧
          (ent ((h.pop).setD 0 key) j).val = (ent h jo).val := by
        intro j hj
        by_cases hj0 : j = 0
        · have h0lt : 0 < (h.pop).size := by rw [hps]; omega
          rw [hj0, ent_setD_self (h.pop) key h0lt]
          exact ⟨h.size - 1, by omega, rfl⟩
        · rw [ent_setD_ne (h.pop) key hj0, ent_pop h hj]
          exact ⟨j, by omega, rfl⟩
      obtain ⟨a1, a2⟩ := adjust_vals lt ((h.pop).setD 0 key) key
      intro j hj
      rw [hred] at hj ⊢
      rw [a1, hsz] at hj
      rcases a2 j (by rw [hsz]; exact hj) with hl | ⟨jo, hjo, hv⟩
      · exact ⟨h.size - 1, by omega, hl⟩
      · rw [hsz] at hjo
        obtain ⟨j2, hj2, hv2⟩ := hsub jo hjo
        exact ⟨j2, hj2, hv.trans hv2⟩

theorem adjust_key_vals (lt : K → K → Bool) (key_fn : V → K)
    (h : Array (AdjustableHeapKey V K)) (i : Nat) (v : V) :
    (adjust_key lt key_fn h i v).size = h.size ∧
    ∀ j, j < h.size → (ent (adjust_key lt key_fn h i v) j).val = v ∨
      ∃ jo, jo < h.size ∧ (ent (adjust_key lt key_fn h i v) j).val = (ent h jo).val :=
  adjust_vals lt h ⟨v, key_fn v, i⟩

end AdjustableHeap

namespace MCF

theorem dlookup_mem {d : List (Nat × DistEntry)} {v : Nat} {de : DistEntry}
    (h : dlookup d v = some de) : (v, de) ∈ d := by
  unfold dlookup at h
  cases hf : d.find? (fun p => decide (p.1 = v)) with
  | none =>
    rw [hf] at h
    simp at h
  | some p =>
    rw [hf] at h
    have h2 : p.2 = de := by simpa using h
    have hp : p.1 = v := by
      have := List.find?_some hf
      simpa using this
    have hm := List.mem_of_find?_eq_some hf
    have hpe : p = (v, de) := by
      cases p
      simp_all
    rw [← hpe]
    exact hm

theorem relaxEdges_capped (edges : List Edge) (potential : Nat → Int) (u : Nat)
    (dst fc : Int)
    (acc : Array (AdjustableHeap.AdjustableHeapKey HeapVal Int) ×
      List (Nat × DistEntry)) :
    relaxEdges edges potential u dst (some fc) acc =
      (adjacency edges u).foldl (relaxStep potential u dst fc) acc := rfl

theorem heapBound_push (b : Int)
    (H : Array (AdjustableHeap.AdjustableHeapKey HeapVal Int))
    (v : Nat) (nd nf : Int) (hH : heapBound b H) (hnf : nf ≤ b) :
    heapBound b (AdjustableHeap.push mcfLt mcfKey H (v, nd, some nf)) := by
  intro j hj
  obtain ⟨s1, s2⟩ := AdjustableHeap.push_vals mcfLt mcfKey H (v, nd, some nf)
  rw [s1] at hj
  rcases s2 j hj with hl | ⟨jo, hjo, hv⟩
  · rw [hl]
    exact ⟨nf, rfl, hnf⟩
  · rw [hv]
    exact hH jo hjo

theorem heapBound_adjustByVertex (b : Int)
    (H : Array (AdjustableHeap.AdjustableHeapKey HeapVal Int))
    (v : Nat) (nd nf : Int) (hH : heapBound b H) (hnf : nf ≤ b) :
    heapBound b (adjustByVertex H v (v, nd, some nf)) := by
  unfold adjustByVertex
  split
  · rename_i jx _
    intro j hj
    obtain ⟨s1, s2⟩ := AdjustableHeap.adjust_key_vals mcfLt mcfKey H jx (v, nd, some nf)
    rw [s1] at hj
    rcases s2 j hj with hl | ⟨jo, hjo, hv⟩
    · rw [hl]
      exact ⟨nf, rfl, hnf⟩
    · rw [hv]
      exact hH jo hjo
  · exact hH

theorem distBound_append (src : Nat) (b : Int) (d : List (Nat × DistEntry))
    (v : Nat) (nd : Int) (ei : Option Nat) (nf : Int)
    (hD : distBound src b d) (hnf : nf ≤ b) :
    distBound src b (d ++ [(v, (nd, ei, nf))]) := by
  intro p hp hps
  rcases List.mem_append.mp hp with hold | hnew
  · exact hD p hold hps
  · rw [List.mem_singleton.mp hnew]
    exact hnf

theorem distBound_dupdate (src : Nat) (b : Int) (d : List (Nat × DistEntry))
    (v : Nat) (de : DistEntry) (hD : distBound src b d) (hde : de.2.2 ≤ b) :
    distBound src b (dupdate d v de) := by
  intro p hp hps
  unfold dupdate at hp
  obtain ⟨q, hq, hqe⟩ := List.mem_map.mp hp
  by_cases hqv : q.1 = v
  · rw [if_pos hqv] at hqe
    rw [← hqe]
    exact hde
  · rw [if_neg hqv] at hqe
    rw [← hqe]
    exact hD q hq (by rw [hqe]; exact hps)

theorem relaxStep_bound (potential : Nat → Int) (u : Nat) (dst fc : Int)
    (src : Nat) (b : Int) (hfc : fc ≤ b)
    (acc : Array (AdjustableHeap.AdjustableHeapKey HeapVal Int) ×
      List (Nat × DistEntry)) (ie : Nat × Edge)
    (hH : heapBound b acc.1) (hD : distBound src b acc.2) :
    heapBound b (relaxStep potential u dst fc acc ie).1 ∧
    distBound src b (relaxStep potential u dst fc acc ie).2 := by
  have hnf : min fc (directed_edge ie.2 u).2.1 ≤ b :=
    le_trans (min_le_left _ _) hfc
  simp only [relaxStep]
  by_cases hcap : (directed_edge ie.2 u).2.1 = 0
  · rw [if_pos hcap]
    exact ⟨hH, hD⟩
  · rw [if_neg hcap]
    split
    · exact ⟨heapBound_push _ _ _ _ _ hH hnf, distBound_append _ _ _ _ _ _ _ hD hnf⟩
    · split
      · exact ⟨heapBound_adjustByVertex _ _ _ _ _ hH hnf,
          distBound_dupdate _ _ _ _ _ hD hnf⟩
      · exact ⟨hH, hD⟩

theorem relaxFold_bound (potential : Nat → Int) (u : Nat) (dst fc : Int)
    (src : Nat) (b : Int) (hfc : fc ≤ b) :
    ∀ (l : List (Nat × Edge))
      (acc : Array (AdjustableHeap.AdjustableHeapKey HeapVal Int) ×
        List (Nat × DistEntry)),
      heapBound b acc.1 → distBound src b acc.2 →
      heapBound b (l.foldl (relaxStep potential u dst fc) acc).1 ∧
      distBound src b (l.foldl (relaxStep potential u dst fc) acc).2 := by
  intro l
  induction l with
  | nil =>
    intro acc hH hD
    exact ⟨hH, hD⟩
  | cons ie l ih =>
    intro acc hH hD
    obtain ⟨h1, h2⟩ := relaxStep_bound potential u dst fc src b hfc acc ie hH hD
    exact ih _ h1 h2

theorem dijkstraLoop_bound (edges : List Edge) (potential : Nat → Int)
    (src : Nat) (b : Int) :
    ∀ (fuel : Nat) (heap : Array (AdjustableHeap.AdjustableHeapKey HeapVal Int))
      (dist : List (Nat × DistEntry)),
      heapBound b heap → distBound src b dist →
      distBound src b (dijkstraLoop edges potential fuel heap dist) := by
  intro fuel
  induction fuel with
  | zero =>
    intro heap dist _ hD
    exact hD
  | succ fuel ih =>
    intro heap dist hH hD
    by_cases hz : heap.size = 0
    · have hred : dijkstraLoop edges potential (fuel + 1) heap dist = dist := by
        simp only [dijkstraLoop]
        rw [if_pos hz]
      rw [hred]
      exact hD
    · have hred : dijkstraLoop edges potential (fuel + 1) heap dist =
          dijkstraLoop edges potential fuel
            (relaxEdges edges potential (AdjustableHeap.pop mcfLt heap).1.1
              (AdjustableHeap.pop mcfLt heap).1.2.1
              (AdjustableHeap.pop mcfLt heap).1.2.2
              ((AdjustableHeap.pop mcfLt heap).2, dist)).1
            (relaxEdges edges potential (AdjustableHeap.pop mcfLt heap).1.1
              (AdjustableHeap.pop mcfLt heap).1.2.1
              (AdjustableHeap.pop mcfLt heap).1.2.2
              ((AdjustableHeap.pop mcfLt heap).2, dist)).2 := by
        simp only [dijkstraLoop]
        rw [if_neg hz]
      rw [hred]
      obtain ⟨f, hf, hfb⟩ := hH 0 (by omega)
      have hflow : (AdjustableHeap.pop mcfLt heap).1.2.2 = some f := by
        rw [AdjustableHeap.pop_fst_any]
        exact hf
      rw [hflow, relaxEdges_capped]
      have hH2 : heapBound b (AdjustableHeap.pop mcfLt heap).2 := by
        intro j hj
        obtain ⟨jo, hjo, hv⟩ := AdjustableHeap.pop_vals mcfLt heap j hj
        rw [hv]
        exact hH jo hjo
      obtain ⟨g1, g2⟩ := relaxFold_bound potential (AdjustableHeap.pop mcfLt heap).1.1
        (AdjustableHeap.pop mcfLt heap).1.2.1 f src b hfb
        (adjacency edges (AdjustableHeap.pop mcfLt heap).1.1)
        ((AdjustableHeap.pop mcfLt heap).2, dist) hH2 hD
      exact ih _ _ g1 g2

end MCF

namespace MCF

theorem addFlowLoop_le (src snk : Nat) (hss : src ≠ snk) (k : Int) :
    ∀ (fuel : Nat) (edges : List Edge) (potential : Nat → Int) (flow flow_cost : Int),
      flow ≤ k →
      (addFlowLoop src snk (some k) fuel edges potential flow flow_cost).1 ≤ k := by
  intro fuel
  induction fuel with
  | zero =>
    intro edges potential flow fc hfk
    exact hfk
  | succ fuel ih =>
    intro edges potential flow fc hfk
    by_cases hlt : flow < k
    · simp only [addFlowLoop]
      rw [if_neg (by simp [hlt])]
      cases hdl : dlookup (dijkstraLoop edges potential (2 * edges.length + 2)
          (AdjustableHeap.push mcfLt mcfKey #[] (src, 0, some (k - flow)))
          [(src, ((0 : Int), none, flow))]) snk with
      | none =>
        exact hfk
      | some sd =>
        have hmem := dlookup_mem hdl
        have hD0 : distBound src (k - flow) [(src, ((0 : Int), none, flow))] := by
          intro p hp hps
          rw [List.mem_singleton.mp hp] at hps
          exact absurd rfl hps
        have hH0 : heapBound (k - flow)
            (AdjustableHeap.push mcfLt mcfKey #[] (src, 0, some (k - flow))) :=
          heapBound_push _ _ _ _ _ (fun j hj => absurd hj (Nat.not_lt_zero j)) le_rfl
        have hD := dijkstraLoop_bound edges potential src (k - flow)
          (2 * edges.length + 2) _ _ hH0 hD0
        have hsd : sd.2.2 ≤ k - flow := hD (snk, sd) hmem (fun he => hss he.symm)
        apply ih
        omega
    · have hred : addFlowLoop src snk (some k) (fuel + 1) edges potential flow fc =
          (flow, fc) := by
        simp only [addFlowLoop]
        rw [if_pos (by simp [hlt])]
      rw [hred]
      exact hfk

/-- Half of the capped-flow claim: with a nonnegative cap k the flow value
returned by the capped add_flow call never exceeds k, because the bottleneck
of the initial source label is k minus the flow added so far and every label
produced by a relaxation only shrinks it. -/
theorem add_flow_capped_le (g : MinCostFlow) (src snk : Nat) (k : Int)
    (hk : 0 ≤ k) (hss : src ≠ snk) :
    (add_flow g src snk (some k)).1 ≤ k :=
  addFlowLoop_le src snk hss k _ g.edges g.potential 0 0 hk

/-- Witness: the single-edge graph with capacity 2 capped at 1 adds at most
one unit of flow (it adds exactly one). -/
theorem add_flow_capped_le_witness :
    (0 : Int) ≤ 1 ∧ (0 : Nat) ≠ 1 ∧ (add_flow exGraph 0 1 (some 1)).1 ≤ 1 :=
  ⟨by decide, by decide, add_flow_capped_le exGraph 0 1 1 (by decide) (by decide)⟩

end MCF
